import Mathlib

/-!
Shallow embedding of the Minnets proactive-retrieval backend
(`backend/retrieval/scoring.py`, `backend/retrieval/cascade_router.py`,
`backend/retrieval/orthogonal_search.py`, `backend/retrieval/supermemory.py`,
`backend/retrieval/vector_math.py`, `backend/synthesis/openai_client.py`,
`backend/main.py`), together with proofs checking the natural-language
specification against the code.

Python floats are modelled as exact rationals (`ℚ`); the numpy float vectors
of `vector_math.py` are modelled as lists of reals (`ℝ`), since L2 norms
involve square roots.  `math.log` is an uninterpreted parameter `lnq` of the
temporal-boost pass.  Outbound calls (OpenAI, Exa, Supermemory) are modelled
as environment records of pure functions; a raised `AttributeError` is
modelled with `Except`.
-/

namespace Minnets

/-- Python string slicing `s[:n]` (by characters). -/
def pyTake (s : String) (n : ℕ) : String := ⟨s.data.take n⟩

/-- Auxiliary for `pyStripChild`: remove every occurrence of the pattern
`child_`, scanning left to right (structural recursion so that it evaluates
in the kernel). -/
def stripChild : List Char → List Char
  | 'c' :: 'h' :: 'i' :: 'l' :: 'd' :: '_' :: rest => stripChild rest
  | c :: rest => c :: stripChild rest
  | [] => []

/-- Python `s.replace("child_", "")` as used by `get_related`. -/
def pyStripChild (s : String) : String := ⟨stripChild s.data⟩

/-- `models.SearchResult`: a unit of web knowledge. -/
structure SearchResult where
  title : String
  url : String
  text : String
  score : ℚ
  deriving Repr, DecidableEq

/-- One entry of `Memory.relationships` (built in `supermemory.py` from the
`parents` / `children` context payload): a type tag and the related content. -/
structure Rel where
  type : String
  content : String
  deriving Repr, DecidableEq

/-- `models.Memory`.  `lastAccessedDays` is `(now - last_accessed).days` when
`last_accessed` is set, `none` otherwise. -/
structure Memory where
  id : String
  content : String
  similarity : ℚ
  lastAccessedDays : Option ℤ := none
  relationships : List Rel := []
  deriving Repr, DecidableEq

/-- An item flowing through the retrieval pipeline: a `Memory` from the local
store or a `SearchResult` from the web. -/
inductive Item where
  | mem (m : Memory)
  | web (r : SearchResult)
  deriving Repr, DecidableEq

/-- `models.VibeProfile`. -/
structure VibeProfile where
  emotional_signatures : List String := []
  archetype : String := ""
  cross_domain_interests : List String := []
  anti_patterns : List String := []
  source_domain : String := ""
  deriving Repr, DecidableEq

/-- `models.StrategyWeights` (pydantic validates each weight into [0,1]). -/
structure StrategyWeights where
  serendipity : ℚ
  relevance : ℚ
  source_web : ℚ
  source_local : ℚ
  reasoning : String := ""
  deriving Repr, DecidableEq

/-! ## Scorer (`backend/retrieval/scoring.py`) -/

/-- Constructor parameters of `RetrievalScorer` (defaults of `__init__`). -/
structure ScorerCfg where
  min_similarity : ℚ := 13/20
  max_similarity : ℚ := 17/20
  echo_penalty : ℚ := 1/2
  sweet_spot_bonus : ℚ := 6/5
  deriving Repr, DecidableEq

/-- The scorer as instantiated throughout the repository: `RetrievalScorer()`. -/
def defaultScorer : ScorerCfg := {}

/-- One output tuple `(item, final_score, relevance_score, novelty_score)` of
the scorer. -/
structure Scored where
  item : Item
  score : ℚ
  rel : ℚ
  nov : ℚ
  deriving Repr, DecidableEq

/-- The similarity used for the item at position `i` of the scored list:
a `Memory` carries its own similarity, a web result gets the synthetic
position-based `max(0.65, 0.85 - i*0.05)` (literal constants in the source). -/
def mmrSim (i : ℕ) : Item → ℚ
  | .mem m => m.similarity
  | .web _ => max (13/20) (17/20 - (i : ℚ) * (1/20))

/-- The doughnut banding of `apply_mmr_scoring`: given the similarity, return
`(relevance_score, novelty_score)` after the final `min(1.0, ·)` cap on
relevance.  Note the echo-chamber test is the STRICT `sim > max_similarity`. -/
def mmrBand (cfg : ScorerCfg) (sim : ℚ) : ℚ × ℚ :=
  if cfg.max_similarity < sim then
    (min 1 (sim * cfg.echo_penalty), 1/5)
  else if cfg.min_similarity ≤ sim ∧ sim ≤ cfg.max_similarity then
    (min 1 (sim * cfg.sweet_spot_bonus),
     max (1/2) (min 1 (1 - (sim - cfg.min_similarity) /
        (cfg.max_similarity - cfg.min_similarity))))
  else
    (min 1 (sim * (4/5)), 4/5)

/-- The `enumerate` loop of `apply_mmr_scoring`, threading the index. -/
def applyMmrAux (cfg : ScorerCfg) : ℕ → List Item → List Scored
  | _, [] => []
  | i, it :: rest =>
    let b := mmrBand cfg (mmrSim i it)
    ⟨it, b.1, b.1, b.2⟩ :: applyMmrAux cfg (i + 1) rest

/-- `RetrievalScorer.apply_mmr_scoring`: the returned tuple repeats the capped
relevance as the final score. -/
def apply_mmr_scoring (cfg : ScorerCfg) (items : List Item) : List Scored :=
  applyMmrAux cfg 0 items

/-- `RetrievalScorer.apply_temporal_boost`, with `math.log` left as the
uninterpreted parameter `lnq` (applied to `max(days_since, 1)`). -/
def apply_temporal_boost (lnq : ℤ → ℚ) (scored : List Scored) : List Scored :=
  scored.map fun s =>
    match s.item with
    | .mem m =>
      match m.lastAccessedDays with
      | some d =>
        ⟨s.item, s.score * (1 + lnq (max d 1)), s.rel,
         min 1 (s.nov * (1 + lnq (max d 1) / 10))⟩
      | none => s
    | .web _ => s

/-- Stable insertion (descending by `key`): a new element goes after every
element whose key is ≥ its own, mirroring the stability of Python's
`sorted(..., reverse=True)`. -/
def insertDesc (key : α → ℚ) (x : α) : List α → List α
  | [] => [x]
  | y :: ys => if key x ≤ key y then y :: insertDesc key x ys else x :: y :: ys

/-- Stable descending sort by `key` (Python `sorted(items, key, reverse=True)`). -/
def sortDesc (key : α → ℚ) (l : List α) : List α :=
  l.foldl (fun acc x => insertDesc key x acc) []

/-- `RetrievalScorer.filter_and_rank`: MMR + temporal boost, drop non-positive
scores, sort descending by final score, take `max_results`. -/
def filter_and_rank (cfg : ScorerCfg) (lnq : ℤ → ℚ) (items : List Item)
    (max_results : ℕ) : List Scored :=
  let scored := apply_mmr_scoring cfg items
  let boosted := apply_temporal_boost lnq scored
  let valid := boosted.filter fun s => 0 < s.score
  (sortDesc (·.score) valid).take max_results

/-! Helper lemmas about the sorting and scoring passes. -/

theorem mem_insertDesc (key : α → ℚ) (x : α) (l : List α) (z : α) :
    z ∈ insertDesc key x l ↔ z = x ∨ z ∈ l := by
  induction l with
  | nil => simp [insertDesc]
  | cons y ys ih =>
    by_cases h : key x ≤ key y
    · simp only [insertDesc, if_pos h, List.mem_cons, ih]
      tauto
    · simp only [insertDesc, if_neg h, List.mem_cons]

theorem pairwise_insertDesc (key : α → ℚ) (x : α) (l : List α)
    (h : l.Pairwise fun a b => key b ≤ key a) :
    (insertDesc key x l).Pairwise fun a b => key b ≤ key a := by
  induction l with
  | nil => simp [insertDesc]
  | cons y ys ih =>
    rcases List.pairwise_cons.mp h with ⟨hy, hys⟩
    by_cases hxy : key x ≤ key y
    · simp only [insertDesc, if_pos hxy]
      refine List.pairwise_cons.mpr ⟨?_, ih hys⟩
      intro z hz
      rcases (mem_insertDesc key x ys z).mp hz with rfl | hz
      · exact hxy
      · exact hy z hz
    · simp only [insertDesc, if_neg hxy]
      refine List.pairwise_cons.mpr ⟨?_, h⟩
      intro z hz
      rcases List.mem_cons.mp hz with rfl | hz
      · exact le_of_lt (lt_of_not_le hxy)
      · exact le_trans (hy z hz) (le_of_lt (lt_of_not_le hxy))

theorem sortDesc_aux_pairwise (key : α → ℚ) (l : List α) (acc : List α)
    (hacc : acc.Pairwise fun a b => key b ≤ key a) :
    (l.foldl (fun acc x => insertDesc key x acc) acc).Pairwise
      fun a b => key b ≤ key a := by
  induction l generalizing acc with
  | nil => exact hacc
  | cons x xs ih => exact ih _ (pairwise_insertDesc key x acc hacc)

/-- `sortDesc` output is non-increasing in `key`. -/
theorem sortDesc_pairwise (key : α → ℚ) (l : List α) :
    (sortDesc key l).Pairwise fun a b => key b ≤ key a :=
  sortDesc_aux_pairwise key l [] (by simp)

theorem sortDesc_aux_mem (key : α → ℚ) (l : List α) (acc : List α) (z : α) :
    z ∈ l.foldl (fun acc x => insertDesc key x acc) acc ↔ z ∈ acc ∨ z ∈ l := by
  induction l generalizing acc with
  | nil => simp
  | cons x xs ih =>
    simp only [List.foldl_cons, ih, mem_insertDesc, List.mem_cons]
    tauto

/-- Membership is preserved by `sortDesc`. -/
theorem mem_sortDesc (key : α → ℚ) (l : List α) (z : α) :
    z ∈ sortDesc key l ↔ z ∈ l := by
  simp [sortDesc, sortDesc_aux_mem]

theorem applyMmrAux_length (cfg : ScorerCfg) (i : ℕ) (items : List Item) :
    (applyMmrAux cfg i items).length = items.length := by
  induction items generalizing i with
  | nil => simp [applyMmrAux]
  | cons it rest ih => simp [applyMmrAux, ih]

theorem apply_mmr_scoring_length (cfg : ScorerCfg) (items : List Item) :
    (apply_mmr_scoring cfg items).length = items.length :=
  applyMmrAux_length cfg 0 items

theorem applyMmrAux_item (cfg : ScorerCfg) (i : ℕ) (items : List Item)
    (s : Scored) (hs : s ∈ applyMmrAux cfg i items) : s.item ∈ items := by
  induction items generalizing i with
  | nil => simp [applyMmrAux] at hs
  | cons it rest ih =>
    simp only [applyMmrAux, List.mem_cons] at hs
    rcases hs with rfl | hs
    · exact List.mem_cons_self ..
    · exact List.mem_cons_of_mem it (ih (i + 1) hs)

theorem apply_mmr_scoring_item (cfg : ScorerCfg) (items : List Item)
    (s : Scored) (hs : s ∈ apply_mmr_scoring cfg items) : s.item ∈ items :=
  applyMmrAux_item cfg 0 items s hs

theorem applyMmrAux_get (cfg : ScorerCfg) (i : ℕ) (items : List Item)
    (k : ℕ) (h : k < items.length) :
    (applyMmrAux cfg i items).get
        ⟨k, (applyMmrAux_length cfg i items).symm ▸ h⟩ =
      ⟨items.get ⟨k, h⟩,
       (mmrBand cfg (mmrSim (i + k) (items.get ⟨k, h⟩))).1,
       (mmrBand cfg (mmrSim (i + k) (items.get ⟨k, h⟩))).1,
       (mmrBand cfg (mmrSim (i + k) (items.get ⟨k, h⟩))).2⟩ := by
  induction items generalizing i k with
  | nil => simp at h
  | cons it rest ih =>
    cases k with
    | zero => simp [applyMmrAux]
    | succ k =>
      have hk : k < rest.length := by simpa using h
      have := ih (i + 1) k hk
      simp only [applyMmrAux, List.get_cons_succ] at this ⊢
      rw [this]
      have hidx : i + 1 + k = i + (k + 1) := by omega
      rw [hidx]

/-- Indexed form of the scorer output: position `k` holds the doughnut tuple
built from `mmrSim k` of the input item at `k`. -/
theorem apply_mmr_scoring_get (cfg : ScorerCfg) (items : List Item)
    (k : ℕ) (h : k < items.length) :
    (apply_mmr_scoring cfg items).get
        ⟨k, (apply_mmr_scoring_length cfg items).symm ▸ h⟩ =
      ⟨items.get ⟨k, h⟩,
       (mmrBand cfg (mmrSim k (items.get ⟨k, h⟩))).1,
       (mmrBand cfg (mmrSim k (items.get ⟨k, h⟩))).1,
       (mmrBand cfg (mmrSim k (items.get ⟨k, h⟩))).2⟩ := by
  have := applyMmrAux_get cfg 0 items k h
  simpa using this

/-! ## Memory store and the legacy graph path
(`backend/retrieval/supermemory.py`, `CascadeRouter._check_graph`) -/

/-- The external Supermemory store, as the repository's client observes it:
`search query limit threshold` returns the mapped `Memory` list, and
`getContent id` is the content of `get_memory` (which the client wraps with
`similarity = 1.0`; only the content is consumed by `get_related`). -/
structure StoreEnv where
  search : String → ℕ → ℚ → List Memory
  getContent : String → Option String

/-- Configured retrieval settings (`config.Settings` defaults). -/
structure Settings where
  max_anchors : ℕ := 5
  min_similarity_threshold : ℚ := 13/20
  max_similarity_threshold : ℚ := 17/20
  max_suggestions : ℕ := 3
  pca_min_memories : ℕ := 5
  deriving Repr

def defaultSettings : Settings := {}

/-- `SupermemoryClient.get_related`: look the anchor up, re-search with the
first 500 characters of its content (limit 10, threshold 0.3), and keep the
memories having at least one relationship whose type (with a `child_` prefix
stripped) is among the requested kinds. -/
def get_related (env : StoreEnv) (anchorId : String)
    (relationshipTypes : List String) : List Memory :=
  match env.getContent anchorId with
  | none => []
  | some content =>
    let related := env.search (pyTake content 500) 10 (3/10)
    related.filter fun m =>
      m.relationships.any fun rel =>
        (pyStripChild rel.type) ∈ relationshipTypes

/-- Deduplication by a string key, keeping the first occurrence
(`seen_ids` / `seen_content` pattern of `cascade_router.py`). -/
def dedupeBy (key : α → String) : List α → List String → List α
  | [], _ => []
  | c :: cs, seen =>
    if key c ∈ seen then dedupeBy key cs seen
    else c :: dedupeBy key cs (key c :: seen)

/-- Every element of the dedupe output comes from the input. -/
theorem mem_dedupeBy (key : α → String) (l : List α) (seen : List String)
    (z : α) (hz : z ∈ dedupeBy key l seen) : z ∈ l := by
  induction l generalizing seen with
  | nil => simp [dedupeBy] at hz
  | cons c cs ih =>
    by_cases h : key c ∈ seen
    · simp only [dedupeBy, if_pos h] at hz
      exact List.mem_cons_of_mem c (ih seen hz)
    · simp only [dedupeBy, if_neg h, List.mem_cons] at hz
      rcases hz with rfl | hz
      · exact List.mem_cons_self ..
      · exact List.mem_cons_of_mem c (ih _ hz)

/-- Keys of the dedupe output avoid `seen` and are pairwise distinct. -/
theorem dedupeBy_nodup (key : α → String) (l : List α) (seen : List String) :
    (∀ z ∈ dedupeBy key l seen, key z ∉ seen) ∧
      ((dedupeBy key l seen).map key).Nodup := by
  induction l generalizing seen with
  | nil => simp [dedupeBy]
  | cons c cs ih =>
    by_cases h : key c ∈ seen
    · simpa [dedupeBy, if_pos h] using ih seen
    · simp only [dedupeBy, if_neg h]
      obtain ⟨havoid, hnodup⟩ := ih (key c :: seen)
      refine ⟨?_, ?_⟩
      · intro z hz
        rcases List.mem_cons.mp hz with rfl | hz
        · exact h
        · intro hmem
          exact havoid z hz (List.mem_cons_of_mem _ hmem)
      · refine List.nodup_cons.mpr ⟨?_, hnodup⟩
        intro hmem
        rcases List.mem_map.mp hmem with ⟨z, hz, hkz⟩
        exact havoid z hz (hkz ▸ List.mem_cons_self ..)

/-- Dedupe output is a sublist (order-preserving selection) of its input. -/
theorem dedupeBy_sublist (key : α → String) (l : List α) (seen : List String) :
    List.Sublist (dedupeBy key l seen) l := by
  induction l generalizing seen with
  | nil => simp [dedupeBy]
  | cons c cs ih =>
    by_cases h : key c ∈ seen
    · simp only [dedupeBy, if_pos h]
      exact List.Sublist.cons c (ih seen)
    · simp only [dedupeBy, if_neg h]
      exact List.Sublist.cons₂ c (ih _)

/-- In a list sorted descending on `key`, dedupe keeps, for every element
whose fingerprint is not yet seen, a representative with the same fingerprint
and a score at least as high. -/
theorem dedupeBy_keeps_best (key : α → String) (score : α → ℚ) (l : List α)
    (hsort : l.Pairwise fun a b => score b ≤ score a) (seen : List String)
    (c : α) (hc : c ∈ l) (hseen : key c ∉ seen) :
    ∃ c' ∈ dedupeBy key l seen, key c' = key c ∧ score c ≤ score c' := by
  induction l generalizing seen with
  | nil => cases hc
  | cons d ds ih =>
    rcases List.pairwise_cons.mp hsort with ⟨hd, hds⟩
    by_cases h : key d ∈ seen
    · simp only [dedupeBy, if_pos h]
      rcases List.mem_cons.mp hc with rfl | hc
      · exact absurd h hseen
      · exact ih hds seen hc hseen
    · simp only [dedupeBy, if_neg h]
      rcases List.mem_cons.mp hc with rfl | hc
      · exact ⟨c, List.mem_cons_self .., rfl, le_refl _⟩
      · by_cases hkey : key c = key d
        · exact ⟨d, List.mem_cons_self .., hkey.symm, hd c hc⟩
        · obtain ⟨c', hc', hk, hs⟩ := ih hds (key d :: seen) hc
            (by simp [hkey, hseen])
          exact ⟨c', List.mem_cons_of_mem d hc', hk, hs⟩

/-- The neighbor pool of `_check_graph`: `get_related` fetches for the first
three echo-chamber anchors, then for every sweet-spot anchor that has a
non-empty relationship list. -/
def graphNeighbors (env : StoreEnv) (echo sweet : List Memory) : List Memory :=
  ((echo.take 3).map fun a =>
      get_related env a.id ["derives", "extends", "contrast"]).flatten ++
  ((sweet.filter fun a => a.relationships ≠ []).map fun a =>
      get_related env a.id ["derives", "extends", "contrast"]).flatten

/-- The anchors fetched by `_check_graph` (`include_related=True`, default
threshold 0.5). -/
def graphAnchors (cfg : Settings) (env : StoreEnv) (query : String) :
    List Memory :=
  env.search query cfg.max_anchors (1/2)

/-- Echo-chamber anchors: similarity `≥ max_similarity_threshold`. -/
def graphEcho (cfg : Settings) (env : StoreEnv) (query : String) :
    List Memory :=
  (graphAnchors cfg env query).filter fun a =>
    cfg.max_similarity_threshold ≤ a.similarity

/-- Sweet-spot anchors: similarity in `[min, max)`. -/
def graphSweet (cfg : Settings) (env : StoreEnv) (query : String) :
    List Memory :=
  (graphAnchors cfg env query).filter fun a =>
    cfg.min_similarity_threshold ≤ a.similarity ∧
      a.similarity < cfg.max_similarity_threshold

/-- `all_candidates` of `_check_graph`: sweet anchors ++ graph neighbors
(echo anchors themselves are not added). -/
def graphCandidates (cfg : Settings) (env : StoreEnv) (query : String) :
    List Memory :=
  graphSweet cfg env query ++
    graphNeighbors env (graphEcho cfg env query) (graphSweet cfg env query)

/-- `CascadeRouter._check_graph`: anchors via store search, partition into
echo (`≥ 0.85`) and sweet (`[0.65, 0.85)`) bands, pivot to graph neighbors,
pool = sweet anchors ++ neighbors, dedupe by id, doughnut-score, top
`max_suggestions`.  Returns `none` when a stage comes back empty. -/
def graphScored (cfg : Settings) (env : StoreEnv) (lnq : ℤ → ℚ)
    (query : String) : List Scored :=
  filter_and_rank defaultScorer lnq
    ((dedupeBy (·.id) (graphCandidates cfg env query) []).map Item.mem)
    cfg.max_suggestions

def check_graph (cfg : Settings) (env : StoreEnv) (lnq : ℤ → ℚ)
    (query : String) : Option (List Memory) :=
  if graphAnchors cfg env query = [] then none
  else if graphCandidates cfg env query = [] then none
  else if dedupeBy (·.id) (graphCandidates cfg env query) [] = [] then none
  else if graphScored cfg env lnq query = [] then none
  else some ((graphScored cfg env lnq query).filterMap fun s =>
    match s.item with | .mem m => some m | .web _ => none)

/-- A store environment is coherent with a ground-truth similarity function
`sim` when every search result's similarity field is the similarity of that
memory (by id) to the query issued. -/
def Coherent (env : StoreEnv) (sim : String → String → ℚ) : Prop :=
  ∀ q k t, ∀ m ∈ env.search q k t, m.similarity = sim m.id q

/-- Everything `filter_and_rank` returns is one of the input items. -/
theorem filter_and_rank_item (cfg : ScorerCfg) (lnq : ℤ → ℚ)
    (items : List Item) (k : ℕ) (s : Scored)
    (hs : s ∈ filter_and_rank cfg lnq items k) : s.item ∈ items := by
  have h1 : s ∈ sortDesc (·.score)
      ((apply_temporal_boost lnq (apply_mmr_scoring cfg items)).filter
        fun s => 0 < s.score) :=
    List.mem_of_mem_take hs
  have h2 := (mem_sortDesc _ _ s).mp h1
  have h3 := List.mem_of_mem_filter h2
  simp only [apply_temporal_boost, List.mem_map] at h3
  obtain ⟨s0, hs0, hmap⟩ := h3
  have hitem : s.item = s0.item := by
    cases s0 with
    | mk item score rel nov =>
      cases item with
      | mem m =>
        cases hla : m.lastAccessedDays with
        | none => simp [← hmap, hla]
        | some d => simp [← hmap, hla]
      | web r => simp [← hmap]
  rw [hitem]
  exact apply_mmr_scoring_item cfg items s0 hs0

/-! ## Orthogonal searcher (`backend/retrieval/orthogonal_search.py`) -/

/-- `OrthogonalResult` dataclass. -/
structure OrthogonalResult where
  items : List SearchResult
  strategy : String
  query_used : String
  vibe_profile : Option VibeProfile := none
  target_domain : Option String := none
  subtracted_tags : List String := []
  target_vibe : Option String := none
  deriving Repr, DecidableEq

/-- A Python exception relevant to this development: accessing a method the
object does not define. -/
inductive PyErr where
  | attributeError
  deriving Repr, DecidableEq

/-- The synthesizer object as the retrieval layer sees it.  Each field is the
corresponding method when the object defines it; `OpenAISynthesizer`
(`backend/synthesis/openai_client.py`) defines none of these five, so calling
one raises `AttributeError`. -/
structure Synth where
  extract_vibe : Option (String → VibeProfile)
  generate_archetype_query : Option (VibeProfile → String → String)
  describe_vector_vibe : Option (VibeProfile → List String → String)
  get_embedding : Option (String → List ℚ)
  get_embeddings_batch : Option (List String → List (List ℚ))

/-- The `OpenAISynthesizer` of this codebase: it only defines
`extract_concepts`, `extract_for_redundancy_check`, `should_search_web` and
`synthesize_suggestion`, none of the methods the orthogonal track calls. -/
def openAISynthesizer : Synth :=
  ⟨none, none, none, none, none⟩

/-- External collaborators of the router and orthogonal searcher: Exa web
search, Supermemory search, the LLM rephrasing call of `_generate_noisy_query`
(`none` models its caught failure), the `random.choice` draws, and the three
vector-math strategy bodies (whose internals are modelled separately over ℝ
in `VectorMathR`). -/
structure RouterEnv where
  exaSearch : String → ℕ → List SearchResult
  smSearch : String → ℕ → List Memory
  llmNoisy : String → Option String
  pickDomain : List String → String
  pickInterest : List String → String
  pcaOracle : List Memory → VibeProfile → ℕ → OrthogonalResult
  antonymOracle : String → List Memory → VibeProfile → ℕ → OrthogonalResult
  bridgeOracle : String → String → String → VibeProfile → ℕ → OrthogonalResult

/-- `Settings.orthogonal_target_domains`. -/
def targetDomains : List String :=
  ["restaurants", "music", "films", "books", "travel",
   "architecture", "fashion", "experiences"]

/-- `Settings.bridge_domains`. -/
def bridgeDomains : List String :=
  ["restaurant", "movie", "music", "book", "architecture"]

/-- `OrthogonalSearcher.search_with_noise`: rephrase via LLM (falling back to
the original query on failure) and search the web. -/
def search_with_noise (env : RouterEnv) (query : String) (n : ℕ) :
    OrthogonalResult :=
  let noisy := (env.llmNoisy query).getD query
  { items := env.exaSearch noisy n, strategy := "noise_injection",
    query_used := noisy }

/-- `OrthogonalSearcher.search_via_archetype` with the vibe already supplied
(as `search_all_strategies` does).  An empty archetype short-circuits; the
LLM bridge-query call needs the synthesizer method `generate_archetype_query`. -/
def search_via_archetype (synth : Synth) (env : RouterEnv)
    (vibe : VibeProfile) (n : ℕ) : Except PyErr OrthogonalResult :=
  if vibe.archetype = "" then
    .ok { items := [], strategy := "archetype_bridge", query_used := "",
          vibe_profile := some vibe }
  else
    match synth.generate_archetype_query with
    | none => .error .attributeError
    | some gen =>
      let avail := targetDomains.filter fun d =>
        d.toLower ≠ vibe.source_domain.toLower
      let td := if avail = [] then "experiences" else env.pickDomain avail
      let bq := gen vibe td
      .ok { items := env.exaSearch bq n, strategy := "archetype_bridge",
            query_used := bq, vibe_profile := some vibe,
            target_domain := some td }

/-- `OrthogonalSearcher.search_cross_domain`: issue one of the vibe's
cross-domain interests verbatim; empty when there are none. -/
def search_cross_domain (env : RouterEnv) (vibe : VibeProfile) (n : ℕ) :
    OrthogonalResult :=
  if vibe.cross_domain_interests = [] then
    { items := [], strategy := "cross_domain", query_used := "",
      vibe_profile := some vibe }
  else
    let interest := env.pickInterest vibe.cross_domain_interests
    { items := env.exaSearch interest n, strategy := "cross_domain",
      query_used := interest, vibe_profile := some vibe }

/-- `OrthogonalSearcher.search_principal_component`: under `pca_min_memories`
it returns an empty result; otherwise `vector_math.principal_component_search`
first calls `synthesizer.get_embeddings_batch`, so a synthesizer without that
method raises `AttributeError`; the remaining body is the strategy oracle. -/
def search_principal_componentE (synth : Synth) (env : RouterEnv)
    (mems : List Memory) (vibe : VibeProfile) (n : ℕ) :
    Except PyErr OrthogonalResult :=
  if mems.length < defaultSettings.pca_min_memories then
    .ok { items := [], strategy := "pca", query_used := "",
          vibe_profile := some vibe }
  else
    match synth.get_embeddings_batch with
    | none => .error .attributeError
    | some _ => .ok (env.pcaOracle mems vibe n)

/-- `OrthogonalSearcher.search_antonym_steering`: the steering computation
embeds the memory batch (when memories exist) and then the context and target
vibe, so it needs `get_embeddings_batch` (for non-empty memories) and
`get_embedding`. -/
def search_antonym_steeringE (synth : Synth) (env : RouterEnv) (ctx : String)
    (mems : List Memory) (vibe : VibeProfile) (n : ℕ) :
    Except PyErr OrthogonalResult :=
  if mems = [] then
    match synth.get_embedding with
    | none => .error .attributeError
    | some _ => .ok (env.antonymOracle ctx mems vibe n)
  else
    match synth.get_embeddings_batch with
    | none => .error .attributeError
    | some _ =>
      match synth.get_embedding with
      | none => .error .attributeError
      | some _ => .ok (env.antonymOracle ctx mems vibe n)

/-- `OrthogonalSearcher.search_bridge_vector`: `compute_bridge_vectors` embeds
the anchor table (`get_embeddings_batch`), then the content (`get_embedding`). -/
def search_bridge_vectorE (synth : Synth) (env : RouterEnv) (content : String)
    (src tgt : String) (vibe : VibeProfile) (n : ℕ) :
    Except PyErr OrthogonalResult :=
  match synth.get_embeddings_batch with
  | none => .error .attributeError
  | some _ =>
    match synth.get_embedding with
    | none => .error .attributeError
    | some _ => .ok (env.bridgeOracle content src tgt vibe n)

/-- `OrthogonalSearcher.search_all_strategies`.  The FIRST awaited call is
`self.synthesizer.extract_vibe(context)`; with a synthesizer lacking that
method the whole coroutine raises `AttributeError` before any strategy is
dispatched.  Otherwise strategies 1–3 always run, 4–6 when enough user
memories exist; `asyncio.gather(..., return_exceptions=True)` drops failed
strategies. -/
def search_all_strategies (synth : Synth) (env : RouterEnv)
    (ctx query : String) (n : ℕ) (includeVM : Bool) (mems : List Memory) :
    Except PyErr (List OrthogonalResult) :=
  match synth.extract_vibe with
  | none => .error .attributeError
  | some ev =>
    let vibe := ev ctx
    let base := [Except.ok (search_with_noise env query n),
                 search_via_archetype synth env vibe n,
                 Except.ok (search_cross_domain env vibe n)]
    let vm :=
      if includeVM ∧ defaultSettings.pca_min_memories ≤ mems.length then
        let srcDomain :=
          if vibe.source_domain = "" then "content" else vibe.source_domain
        let tgt := env.pickDomain (bridgeDomains.filter (· ≠ srcDomain))
        [search_principal_componentE synth env mems vibe n,
         search_antonym_steeringE synth env ctx mems vibe n,
         search_bridge_vectorE synth env (pyTake ctx 2000) srcDomain tgt vibe n]
      else []
    .ok ((base ++ vm).filterMap Except.toOption)

/-- One pass of the round-robin loop of `combine_results`: take the head of
each non-empty strategy list, in order, while room remains. -/
def onePass : List (List α) → ℕ → List α × List (List α)
  | [], _ => ([], [])
  | [] :: ls, room =>
    let p := onePass ls room
    (p.1, [] :: p.2)
  | (a :: as) :: ls, 0 => ([], (a :: as) :: ls)
  | (a :: as) :: ls, room + 1 =>
    let p := onePass ls room
    (a :: p.1, as :: p.2)

/-- The `while len(combined) < max_total` loop of `combine_results`,
fuelled (each iteration that continues adds at least one item, so
`maxTotal + 1` units of fuel are enough). -/
def roundRobinAux : ℕ → List (List α) → List α → ℕ → List α
  | 0, _, acc, _ => acc
  | fuel + 1, lists, acc, maxTotal =>
    if acc.length < maxTotal then
      let p := onePass lists (maxTotal - acc.length)
      if p.1.isEmpty then acc
      else roundRobinAux fuel p.2 (acc ++ p.1) maxTotal
    else acc

/-- Round-robin interleaving across strategy lists, stopping at `maxTotal`
or when one sweep adds nothing. -/
def roundRobin (lists : List (List α)) (maxTotal : ℕ) : List α :=
  roundRobinAux (maxTotal + 1) lists [] maxTotal

/-- Metadata aggregated by `combine_results`. -/
structure CombineMeta where
  strategies_used : List String
  queries_used : List String
  deriving Repr, DecidableEq

/-- `OrthogonalSearcher.combine_results`. -/
def combine_results (rs : List OrthogonalResult) (maxTotal : ℕ) :
    List SearchResult × CombineMeta :=
  (roundRobin (rs.map (·.items)) maxTotal,
   ⟨rs.map (·.strategy), rs.map (·.query_used)⟩)

/-! ## Weighted router (`CascadeRouter.route_weighted` and fetch helpers) -/

/-- Python `int()` truncation toward zero on a rational. -/
def pyInt (x : ℚ) : ℤ := if 0 ≤ x then ⌊x⌋ else ⌈x⌉

/-- Web budget of `route_weighted`:
`max(1, int(10 * source_web)) if source_web > 0.1 else 0`. -/
def limitWeb (w : StrategyWeights) : ℕ :=
  if 1/10 < w.source_web then max 1 (pyInt (10 * w.source_web)).toNat else 0

/-- Local budget of `route_weighted`, analogous to `limitWeb`. -/
def limitLocal (w : StrategyWeights) : ℕ :=
  if 1/10 < w.source_local then max 1 (pyInt (10 * w.source_local)).toNat else 0

/-- `CascadeRouter._fetch_orthogonal` (with its default
`include_vector_math=True`): fetch up to 20 user memories with a blank query,
run `search_all_strategies`, combine round-robin up to `limit`; any raised
exception is caught and yields `[]`.  The `lambda_surprise` argument is
accepted and never forwarded, exactly as in the source. -/
def fetch_orthogonal (synth : Synth) (env : RouterEnv) (query ctx : String)
    (lambda_surprise : ℚ) (limit : ℕ) : List SearchResult :=
  let _ := lambda_surprise
  let userMems := env.smSearch "" 20
  match search_all_strategies synth env ctx query (max 1 (limit / 3))
      true userMems with
  | .error _ => []
  | .ok rs => if rs = [] then [] else (combine_results rs limit).1

/-- One dispatched track of `route_weighted` with its tag metadata and the
items its awaited task produced. -/
structure TaskRes where
  source : String
  strategy : String
  items : List Item
  deriving Repr, DecidableEq

/-- The dispatch section of `route_weighted` (steps 1–3): serendipity > 0.2
adds the orthogonal track with `lambda_surprise = serendipity * 1.5` and
budget `min(3, limit_web + limit_local)`; positive local/web budgets add the
vector tracks. -/
def routeWeightedTasks (synth : Synth) (env : RouterEnv) (query ctx : String)
    (w : StrategyWeights) : List TaskRes :=
  (if 1/5 < w.serendipity then
    [⟨"mixed", "orthogonal",
      (fetch_orthogonal synth env query ctx (w.serendipity * (3/2))
        (min 3 (limitWeb w + limitLocal w))).map Item.web⟩]
   else []) ++
  (if 0 < limitLocal w then
    [⟨"supermemory", "vector", (env.smSearch query (limitLocal w)).map Item.mem⟩]
   else []) ++
  (if 0 < limitWeb w then
    [⟨"web", "vector", (env.exaSearch query (limitWeb w)).map Item.web⟩]
   else [])

/-- `ScoredCandidate`. -/
structure ScoredCandidate where
  item : Item
  source : String
  strategy : String
  raw_score : ℚ
  adjusted_score : ℚ
  deriving Repr, DecidableEq

/-- The raw score of a candidate (`similarity` for memories, `score` for web
results; the `else 0.5` default of the source is unreachable for typed items). -/
def rawScore : Item → ℚ
  | .mem m => m.similarity
  | .web r => r.score

/-- Collection step 4 of `route_weighted`: tag every fetched item with its
track's source and strategy ("mixed" resolving by item kind). -/
def routeWeightedCandidates (synth : Synth) (env : RouterEnv)
    (query ctx : String) (w : StrategyWeights) : List ScoredCandidate :=
  (routeWeightedTasks synth env query ctx w).flatMap fun t =>
    t.items.map fun it =>
      { item := it
        source := if t.source = "mixed" then
            (match it with | .web _ => "web" | .mem _ => "supermemory")
          else t.source
        strategy := t.strategy
        raw_score := rawScore it
        adjusted_score := rawScore it }

/-- `ScoredCandidate.apply_weight_boost`. -/
def apply_weight_boost (w : StrategyWeights) (c : ScoredCandidate) :
    ScoredCandidate :=
  let s1 := c.raw_score *
    (if c.source = "web" then 1 + w.source_web
     else if c.source = "supermemory" then 1 + w.source_local else 1)
  let s2 := s1 *
    (if c.strategy = "orthogonal" then 1 + w.serendipity * 2
     else 1 + w.relevance)
  { c with adjusted_score := s2 }

/-- Content fingerprint used by the dedupe of `route_weighted`. -/
def fingerprint : Item → String
  | .mem m => pyTake m.content 100
  | .web r => r.url

/-- Boosted candidate pool of `route_weighted`, sorted by adjusted score
(Python's stable descending sort). -/
def routeWeightedSorted (synth : Synth) (env : RouterEnv) (query ctx : String)
    (w : StrategyWeights) : List ScoredCandidate :=
  sortDesc (·.adjusted_score)
    ((routeWeightedCandidates synth env query ctx w).map (apply_weight_boost w))

/-- Deduplicated candidates (`unique_candidates`): first occurrence per
fingerprint in the sorted order. -/
def routeWeightedUnique (synth : Synth) (env : RouterEnv) (query ctx : String)
    (w : StrategyWeights) : List ScoredCandidate :=
  dedupeBy (fun c => fingerprint c.item)
    (routeWeightedSorted synth env query ctx w) []

/-- `top_candidates` of `route_weighted`: the first `max_suggestions` unique
candidates (the empty-candidate early returns produce the same empty list). -/
def routeWeightedTop (synth : Synth) (env : RouterEnv) (query ctx : String)
    (w : StrategyWeights) (max_suggestions : ℕ) : List ScoredCandidate :=
  (routeWeightedUnique synth env query ctx w).take max_suggestions

/-! ## Properties of the round-robin interleave -/

theorem roundRobinAux_succ (fuel : ℕ) (lists : List (List α)) (acc : List α)
    (mt : ℕ) :
    roundRobinAux (fuel + 1) lists acc mt =
      if acc.length < mt then
        if (onePass lists (mt - acc.length)).1.isEmpty then acc
        else roundRobinAux fuel (onePass lists (mt - acc.length)).2
          (acc ++ (onePass lists (mt - acc.length)).1) mt
      else acc := rfl

theorem onePass_len (lists : List (List α)) (room : ℕ) :
    ((onePass lists room).1).length ≤ room := by
  induction lists generalizing room with
  | nil => simp [onePass]
  | cons l ls ih =>
    cases l with
    | nil => simpa [onePass] using ih room
    | cons a as =>
      cases room with
      | zero => simp [onePass]
      | succ r =>
        simp only [onePass, List.length_cons]
        exact Nat.succ_le_succ (ih r)

theorem roundRobinAux_length (fuel : ℕ) (lists : List (List α)) (acc : List α)
    (mt : ℕ) (h : acc.length ≤ mt) :
    (roundRobinAux fuel lists acc mt).length ≤ mt := by
  induction fuel generalizing lists acc with
  | zero => simpa [roundRobinAux] using h
  | succ f ih =>
    simp only [roundRobinAux]
    split
    · split
      · exact h
      · apply ih
        have h1 := onePass_len lists (mt - acc.length)
        simp only [List.length_append]
        omega
    · exact h

theorem roundRobinAux_prefix (fuel : ℕ) (lists : List (List α)) (acc : List α)
    (mt : ℕ) : ∃ t, roundRobinAux fuel lists acc mt = acc ++ t := by
  induction fuel generalizing lists acc with
  | zero => exact ⟨[], by simp [roundRobinAux]⟩
  | succ f ih =>
    simp only [roundRobinAux]
    split
    · split
      · exact ⟨[], by simp⟩
      · obtain ⟨t, ht⟩ := ih (onePass lists (mt - acc.length)).2
          (acc ++ (onePass lists (mt - acc.length)).1)
        exact ⟨(onePass lists (mt - acc.length)).1 ++ t,
          by rw [ht, List.append_assoc]⟩
    · exact ⟨[], by simp⟩

theorem onePass_map (f : α → β) (lists : List (List α)) (room : ℕ) :
    onePass (lists.map (List.map f)) room =
      ((onePass lists room).1.map f, (onePass lists room).2.map (List.map f)) := by
  induction lists generalizing room with
  | nil => simp [onePass]
  | cons l ls ih =>
    cases l with
    | nil => simp [onePass, ih room]
    | cons a as =>
      cases room with
      | zero => simp [onePass]
      | succ r => simp [onePass, ih r]

theorem roundRobinAux_map (f : α → β) (fuel : ℕ) (lists : List (List α))
    (acc : List α) (mt : ℕ) :
    roundRobinAux fuel (lists.map (List.map f)) (acc.map f) mt =
      (roundRobinAux fuel lists acc mt).map f := by
  induction fuel generalizing lists acc with
  | zero => simp [roundRobinAux]
  | succ fl ih =>
    simp only [roundRobinAux, List.length_map, onePass_map]
    by_cases hlt : acc.length < mt
    · simp only [if_pos hlt]
      cases h1 : (onePass lists (mt - acc.length)).1 with
      | nil => simp [h1]
      | cons x xs =>
        simp only [h1, List.map_cons, List.isEmpty_cons, if_neg, Bool.false_eq_true,
          not_false_eq_true]
        have hmap : List.map f acc ++ f x :: List.map f xs =
            List.map f (acc ++ x :: xs) := by simp
        rw [hmap, ih]
    · simp [if_neg hlt]

theorem roundRobin_map (f : α → β) (lists : List (List α)) (mt : ℕ) :
    roundRobin (lists.map (List.map f)) mt = (roundRobin lists mt).map f := by
  simpa [roundRobin] using roundRobinAux_map f (mt + 1) lists [] mt

/-- Tag every strategy list with its index, starting at `i`. -/
def tagLists : ℕ → List (List α) → List (List (ℕ × α))
  | _, [] => []
  | i, l :: ls => l.map (Prod.mk i) :: tagLists (i + 1) ls

theorem tagLists_map_snd (i : ℕ) (ls : List (List α)) :
    (tagLists i ls).map (List.map Prod.snd) = ls := by
  induction ls generalizing i with
  | nil => simp [tagLists]
  | cons l ls ih =>
    simp [tagLists, ih (i + 1), List.map_map, Function.comp]

theorem tagLists_getD (ls : List (List α)) (i j : ℕ) :
    (tagLists i ls).getD j [] = (ls.getD j []).map (Prod.mk (i + j)) := by
  induction ls generalizing i j with
  | nil => simp [tagLists]
  | cons l ls ih =>
    cases j with
    | zero => simp [tagLists]
    | succ j =>
      simp only [tagLists, List.getD_cons_succ]
      rw [ih (i + 1) j]
      have hidx : i + 1 + j = i + (j + 1) := by omega
      rw [hidx]

theorem onePass_taken_mem (lists : List (List α)) (room : ℕ) (x : α)
    (hx : x ∈ (onePass lists room).1) : ∃ i, x ∈ lists.getD i [] := by
  induction lists generalizing room with
  | nil => simp [onePass] at hx
  | cons l ls ih =>
    cases l with
    | nil =>
      simp only [onePass] at hx
      obtain ⟨i, hi⟩ := ih room hx
      exact ⟨i + 1, by simpa using hi⟩
    | cons a as =>
      cases room with
      | zero => simp [onePass] at hx
      | succ r =>
        simp only [onePass, List.mem_cons] at hx
        rcases hx with rfl | hx
        · exact ⟨0, by simp⟩
        · obtain ⟨i, hi⟩ := ih r hx
          exact ⟨i + 1, by simpa using hi⟩

theorem onePass_rest_mem (lists : List (List α)) (room j : ℕ) (x : α)
    (hx : x ∈ (onePass lists room).2.getD j []) : x ∈ lists.getD j [] := by
  induction lists generalizing room j with
  | nil => simp [onePass] at hx
  | cons l ls ih =>
    cases l with
    | nil =>
      cases j with
      | zero => simp [onePass] at hx
      | succ j =>
        simp only [onePass, List.getD_cons_succ] at hx ⊢
        exact ih room j hx
    | cons a as =>
      cases room with
      | zero => simpa [onePass] using hx
      | succ r =>
        cases j with
        | zero =>
          simp only [onePass, List.getD_cons_zero] at hx ⊢
          exact List.mem_cons_of_mem a hx
        | succ j =>
          simp only [onePass, List.getD_cons_succ] at hx ⊢
          exact ih r j hx

theorem onePass_filter_eq (q : α → Bool) (lists : List (List α)) (room j : ℕ)
    (hT : ∀ p ∈ lists.getD j [], q p = true)
    (hF : ∀ i, i ≠ j → ∀ p ∈ lists.getD i [], q p = false) :
    ((onePass lists room).1.filter q) ++ (onePass lists room).2.getD j [] =
      lists.getD j [] := by
  induction lists generalizing room j with
  | nil => simp [onePass]
  | cons l ls ih =>
    cases l with
    | nil =>
      cases j with
      | zero =>
        simp only [onePass, List.getD_cons_zero, List.append_nil]
        refine List.filter_eq_nil_iff.mpr ?_
        intro x hx
        obtain ⟨i, hi⟩ := onePass_taken_mem ls room x hx
        have := hF (i + 1) (by omega) x (by simpa using hi)
        simp [this]
      | succ j =>
        simp only [onePass, List.getD_cons_succ] at hT hF ⊢
        exact ih room j (fun p hp => hT p hp)
          (fun i hi p hp => hF (i + 1) (by omega) p (by simpa using hp))
    | cons a as =>
      cases room with
      | zero => simp [onePass]
      | succ r =>
        cases j with
        | zero =>
          have ha : q a = true := hT a (by simp)
          have hrest : (onePass ls r).1.filter q = [] := by
            refine List.filter_eq_nil_iff.mpr ?_
            intro x hx
            obtain ⟨i, hi⟩ := onePass_taken_mem ls r x hx
            have := hF (i + 1) (by omega) x (by simpa using hi)
            simp [this]
          simp [onePass, List.filter_cons, ha, hrest]
        | succ j =>
          have ha : q a = false := hF 0 (by omega) a (by simp)
          simp only [onePass, List.getD_cons_succ, List.filter_cons, ha] at hT hF ⊢
          simp only [Bool.false_eq_true, if_neg, not_false_eq_true]
          exact ih r j (fun p hp => hT p hp)
            (fun i hi p hp => hF (i + 1) (by omega) p (by simpa using hp))

theorem roundRobinAux_filter (q : α → Bool) (fuel : ℕ) (lists : List (List α))
    (acc : List α) (mt j : ℕ)
    (hT : ∀ p ∈ lists.getD j [], q p = true)
    (hF : ∀ i, i ≠ j → ∀ p ∈ lists.getD i [], q p = false) :
    ∃ rest, (roundRobinAux fuel lists acc mt).filter q ++ rest =
      acc.filter q ++ lists.getD j [] := by
  induction fuel generalizing lists acc with
  | zero => exact ⟨lists.getD j [], by simp [roundRobinAux]⟩
  | succ f ih =>
    simp only [roundRobinAux]
    by_cases hlt : acc.length < mt
    · simp only [if_pos hlt]
      cases h1 : (onePass lists (mt - acc.length)).1 with
      | nil => exact ⟨lists.getD j [], by simp [h1]⟩
      | cons x xs =>
        simp only [h1, List.isEmpty_cons, Bool.false_eq_true, if_neg,
          not_false_eq_true]
        obtain ⟨rest, hrest⟩ := ih (onePass lists (mt - acc.length)).2
          (acc ++ (onePass lists (mt - acc.length)).1)
          (fun p hp => hT p (onePass_rest_mem lists (mt - acc.length) j p hp))
          (fun i hi p hp =>
            hF i hi p (onePass_rest_mem lists (mt - acc.length) i p hp))
        have hfe := onePass_filter_eq q lists (mt - acc.length) j hT hF
        rw [h1] at hrest
        rw [h1] at hfe
        refine ⟨rest, ?_⟩
        rw [hrest, List.filter_append, List.append_assoc, hfe]
    · simp only [if_neg hlt]
      exact ⟨lists.getD j [], rfl⟩

/-! ## Vector math (`backend/retrieval/vector_math.py`)

numpy float vectors are modelled as lists of reals; `np.linalg.svd` and the
embedding service are oracles supplied by an environment.  These definitions
are `noncomputable` because real square roots and division are. -/

namespace VectorMathR

/-- A numpy vector. -/
abbrev Vec := List ℝ

def vadd (v w : Vec) : Vec := List.zipWith (· + ·) v w

def vsub (v w : Vec) : Vec := List.zipWith (· - ·) v w

def smul (c : ℝ) (v : Vec) : Vec := v.map (c * ·)

def dot (v w : Vec) : ℝ := (List.zipWith (· * ·) v w).sum

/-- Sum of squared components. -/
def normSq (v : Vec) : ℝ := (v.map fun x => x ^ 2).sum

/-- `np.linalg.norm`: the L2 norm. -/
noncomputable def norm (v : Vec) : ℝ := Real.sqrt (normSq v)

/-- The normalisation used throughout `vector_math.py`:
`v / (np.linalg.norm(v) + 1e-10)`. -/
noncomputable def normalizeV (v : Vec) : Vec :=
  smul (1 / (norm v + 1 / 10 ^ 10)) v

/-- `np.mean(vs, axis=0)` for a non-empty list (the guarded call sites never
take the mean of an empty array). -/
noncomputable def centroid (vs : List Vec) : Vec :=
  match vs with
  | [] => []
  | v :: rest => smul (1 / ((v :: rest).length : ℝ)) (rest.foldl vadd v)

/-- `np.argmax` over absolute values: first index attaining the maximum. -/
noncomputable def argmaxAbsAux (l : List ℝ) (i : ℕ) (bv : ℝ) (best : ℕ) : ℕ :=
  match l with
  | [] => best
  | x :: xs =>
    if bv < |x| then argmaxAbsAux xs (i + 1) |x| i
    else argmaxAbsAux xs (i + 1) bv best

/-- `int(np.argmax(np.abs(scores)))`. -/
noncomputable def argmaxAbs : List ℝ → ℕ
  | [] => 0
  | x :: xs => argmaxAbsAux xs 1 |x| 0

instance : Inhabited Memory := ⟨⟨"", "", 0, none, []⟩⟩

/-- The embedding service and linear-algebra oracle: `embed` is
`get_embedding` / one row of `get_embeddings_batch`, `svd` returns the rows
of `Vt` for a (centered) matrix, `pickVibe` is `random.choice`. -/
structure EmbedEnv where
  embed : String → Vec
  svd : List Vec → List Vec
  pickVibe : List String → String

/-- `Settings.antonym_target_vibes`. -/
def antonymTargetVibes : List String :=
  ["relaxation", "novelty", "adventure", "intimacy", "chaos"]

/-- `DOMAIN_ANCHORS` of `vector_math.py`. -/
def domainAnchors : List (String × List String) :=
  [("restaurant",
    ["cozy restaurant ambiance warmth",
     "fine dining experience elegance",
     "casual eatery atmosphere relaxed",
     "minimalist clean aesthetic dining",
     "chaotic bustling energy food"]),
   ("movie",
    ["comfort film warmth nostalgia",
     "drama cinema elegance artistic",
     "casual comedy relaxed entertainment",
     "minimalist art-house aesthetic cinema",
     "chaotic thriller energy suspense"]),
   ("music",
    ["warm acoustic ambient comfort",
     "classical orchestral elegance refined",
     "casual indie relaxed mellow",
     "minimalist electronic aesthetic clean",
     "chaotic noise experimental energy"]),
   ("book",
    ["cozy literary fiction warmth",
     "literary drama elegance prose",
     "casual reading relaxed light",
     "minimalist poetry aesthetic sparse",
     "chaotic experimental narrative energy"]),
   ("architecture",
    ["warm wooden interior comfort",
     "classical elegant design refined",
     "casual modern relaxed spaces",
     "minimalist brutalist aesthetic clean",
     "chaotic deconstructivist energy bold"])]

/-- `self._get_memory_embeddings(user_memories)`: one embedding per memory,
of its first 2000 characters. -/
noncomputable def pcaEmbeddings (env : EmbedEnv) (user_memories : List Memory) :
    List Vec :=
  user_memories.map fun m => env.embed (pyTake m.content 2000)

/-- The pre-normalisation residual of `principal_component_search` in the
main (`|E| ≥ pca_min_memories`) branch: centre, oracle SVD, subtract the top
`pca_num_components` (= 2) right-singular directions from the centroid. -/
noncomputable def pcaResidual (env : EmbedEnv) (user_memories : List Memory)
    (lam : ℝ) : Vec :=
  let embeddings := pcaEmbeddings env user_memories
  let vUser := centroid embeddings
  let Vt := env.svd (embeddings.map fun e => vsub e vUser)
  (Vt.take (min 2 Vt.length)).foldl
    (fun q vi => vsub q (smul (lam * dot vUser vi) vi)) vUser

/-- The "subtracted tags" provenance (`return_subtracted=True`): for each
subtracted direction, the first-80-characters snippet of the memory with the
largest absolute projection along it. -/
noncomputable def pcaTags (env : EmbedEnv) (user_memories : List Memory) :
    List String :=
  let embeddings := pcaEmbeddings env user_memories
  let vUser := centroid embeddings
  let Vt := env.svd (embeddings.map fun e => vsub e vUser)
  (Vt.take (min 2 Vt.length)).map fun vi =>
    pyTake (user_memories.getD
      (argmaxAbs (embeddings.map fun e => dot (vsub e vUser) vi))
      default).content 80

/-- `OrthogonalVectorMath.principal_component_search` (with
`return_subtracted=True`, as every caller in this repository passes):
below `pca_min_memories` the (possibly zero-memory) centroid fallback,
otherwise the normalised residual plus subtracted-tag provenance. -/
noncomputable def principal_component_search (env : EmbedEnv)
    (user_memories : List Memory) (lam : ℝ) : Vec × List String :=
  if (pcaEmbeddings env user_memories).length < 5 then
    (normalizeV (if 0 < (pcaEmbeddings env user_memories).length
      then centroid (pcaEmbeddings env user_memories)
      else List.replicate 1536 0), [])
  else
    (normalizeV (pcaResidual env user_memories lam),
     pcaTags env user_memories)

/-- `OrthogonalVectorMath.antonym_steering_search`:
`normalize(v_taste + α · (v_target − v_context))` with a zero taste vector
when no memories are supplied, returning the target-vibe label chosen. -/
noncomputable def antonym_steering_search (env : EmbedEnv)
    (current_context : String) (user_memories : List Memory)
    (target_vibe : Option String) (alpha : ℝ) : Vec × String :=
  let vTaste :=
    if user_memories = [] then List.replicate 1536 0
    else centroid (user_memories.map fun m => env.embed (pyTake m.content 2000))
  let vContext := env.embed (pyTake current_context 4000)
  let tv := target_vibe.getD (env.pickVibe antonymTargetVibes)
  let vTarget := env.embed tv
  (normalizeV (vadd vTaste (smul alpha (vsub vTarget vContext))), tv)

/-- Domain centroids of `compute_bridge_vectors`. -/
noncomputable def domainCentroids (env : EmbedEnv) : List (String × Vec) :=
  domainAnchors.map fun p => (p.1, centroid (p.2.map env.embed))

/-- `OrthogonalVectorMath.bridge_vector_search`: add the
`centroid(target) − centroid(source)` bridge when the pair is in the table
(the table only holds pairs of distinct known domains), otherwise return the
normalised content vector. -/
noncomputable def bridge_vector_search (env : EmbedEnv) (content : String)
    (source_domain target_domain : String) : Vec :=
  match (domainCentroids env).lookup target_domain,
      (domainCentroids env).lookup source_domain with
  | some ct, some cs =>
    if target_domain = source_domain then
      normalizeV (env.embed (pyTake content 4000))
    else normalizeV (vadd (env.embed (pyTake content 4000)) (vsub ct cs))
  | _, _ => normalizeV (env.embed (pyTake content 4000))

theorem normSq_nonneg (v : Vec) : 0 ≤ normSq v := by
  refine List.sum_nonneg ?_
  intro x hx
  obtain ⟨y, _, rfl⟩ := List.mem_map.mp hx
  positivity

theorem norm_nonneg (v : Vec) : 0 ≤ norm v := Real.sqrt_nonneg _

theorem normSq_smul (c : ℝ) (v : Vec) :
    normSq (smul c v) = c ^ 2 * normSq v := by
  induction v with
  | nil => simp [normSq, smul]
  | cons x xs ih =>
    simp only [normSq, smul, List.map_cons, List.sum_cons] at ih ⊢
    rw [ih]
    ring

theorem norm_smul_nonneg (c : ℝ) (v : Vec) (hc : 0 ≤ c) :
    norm (smul c v) = c * norm v := by
  unfold norm
  rw [normSq_smul, Real.sqrt_mul (sq_nonneg c), Real.sqrt_sq hc]

theorem norm_normalizeV (v : Vec) :
    norm (normalizeV v) = norm v / (norm v + 1 / 10 ^ 10) := by
  unfold normalizeV
  have hpos : (0:ℝ) < norm v + 1 / 10 ^ 10 := by
    have h1 := norm_nonneg v
    have h2 : (0:ℝ) < 1 / 10 ^ 10 := by norm_num
    linarith
  rw [norm_smul_nonneg _ v (by positivity)]
  rw [one_div, inv_mul_eq_div]

/-- Normalised vectors whose pre-normalisation norm is at least `1e-4` have
norm within `1e-6` of 1 (the `+ 1e-10` guard shifts it slightly below 1). -/
theorem norm_normalizeV_band (v : Vec) (h : 1 / 10 ^ 4 ≤ norm v) :
    1 - 1 / 10 ^ 6 ≤ norm (normalizeV v) ∧
      norm (normalizeV v) ≤ 1 + 1 / 10 ^ 6 := by
  rw [norm_normalizeV]
  have hn0 : 0 ≤ norm v := norm_nonneg v
  have hd : (0:ℝ) < norm v + 1 / 10 ^ 10 := by
    have : (0:ℝ) < 1 / 10 ^ 10 := by norm_num
    linarith
  constructor
  · rw [le_div_iff₀ hd]
    nlinarith
  · have h1 : norm v / (norm v + 1 / 10 ^ 10) ≤ 1 := by
      rw [div_le_one hd]
      norm_num
    linarith

theorem norm_replicate_zero (n : ℕ) : norm (List.replicate n (0:ℝ)) = 0 := by
  unfold norm normSq
  have : (List.replicate n (0:ℝ)).map (fun x => x ^ 2) =
      List.replicate n (0:ℝ) := by
    simp
  rw [this]
  simp

end VectorMathR

/-! ## The /analyze pipeline (`backend/main.py: analyze_context`) -/

/-- The externally observable pipeline stages of one `/analyze` request. -/
inductive PipeEv where
  | judge
  | extract
  | route
  | score
  | synthesize
  | log
  deriving Repr, DecidableEq

/-- Oracles for the awaited collaborator calls of `analyze_context`:
the judge's weights, the extracted concepts, and the routed items. -/
structure AnalyzeEnv where
  judgeWeights : StrategyWeights
  concepts : List String
  routeItems : StrategyWeights → String → List Item

/-- The stage trace of `analyze_context`: the Context Judge is awaited FIRST
(step 0 in the source), then concept extraction (step 1); empty concepts
return early; then weighted routing; empty items return early; then scoring,
synthesis of each survivor, and the decision-log write. -/
def analyzeTrace (env : AnalyzeEnv) : List PipeEv :=
  let evs := [PipeEv.judge, PipeEv.extract]
  if env.concepts = [] then evs
  else
    let query := " ".intercalate (env.concepts.take 3)
    let items := env.routeItems env.judgeWeights query
    let evs := evs ++ [PipeEv.route]
    if items = [] then evs
    else evs ++ [PipeEv.score, PipeEv.synthesize, PipeEv.log]

/-! ## Claims -/

/-- C3 (amended): the echo-chamber treatment applies to STRICT similarity
`s > 0.85` (the source tests `sim > self.max_similarity`, so `s = 0.85`
falls into the sweet-spot branch): for every scored item that is a `Memory`
with similarity `s` where `0.85 < s ≤ 1`, the output relevance is `s × 0.5`
and the output novelty is exactly `0.2`. -/
theorem C3_echo_band_strict (items : List Item) (k : ℕ) (h : k < items.length)
    (m : Memory) (hm : items.get ⟨k, h⟩ = Item.mem m)
    (hs : 17/20 < m.similarity) (hs1 : m.similarity ≤ 1) :
    ((apply_mmr_scoring defaultScorer items).get
        ⟨k, (apply_mmr_scoring_length defaultScorer items).symm ▸ h⟩).rel =
      m.similarity * (1/2) ∧
    ((apply_mmr_scoring defaultScorer items).get
        ⟨k, (apply_mmr_scoring_length defaultScorer items).symm ▸ h⟩).nov =
      1/5 := by
  have hget := apply_mmr_scoring_get defaultScorer items k h
  rw [hget, hm]
  have hsim : mmrSim k (Item.mem m) = m.similarity := rfl
  have hband : mmrBand defaultScorer m.similarity =
      (min 1 (m.similarity * (1/2)), 1/5) := by
    unfold mmrBand defaultScorer
    rw [if_pos (by exact_mod_cast hs)]
  rw [hsim, hband]
  refine ⟨?_, rfl⟩
  have : m.similarity * (1/2) ≤ 1 := by linarith
  simpa using min_eq_right this

/-- C3 witness: a memory at similarity 0.9 receives relevance 0.45 and
novelty 0.2. -/
theorem C3_echo_band_strict_witness :
    ((apply_mmr_scoring defaultScorer [Item.mem ⟨"w", "cw", 9/10, none, []⟩]).get
        ⟨0, (apply_mmr_scoring_length defaultScorer
          [Item.mem ⟨"w", "cw", 9/10, none, []⟩]).symm ▸ (by norm_num)⟩).rel =
      (9/10 : ℚ) * (1/2) ∧
    ((apply_mmr_scoring defaultScorer [Item.mem ⟨"w", "cw", 9/10, none, []⟩]).get
        ⟨0, (apply_mmr_scoring_length defaultScorer
          [Item.mem ⟨"w", "cw", 9/10, none, []⟩]).symm ▸ (by norm_num)⟩).nov =
      1/5 :=
  C3_echo_band_strict [Item.mem ⟨"w", "cw", 9/10, none, []⟩] 0 (by norm_num)
    ⟨"w", "cw", 9/10, none, []⟩ rfl (by norm_num) (by norm_num)

/-- C3 counterexample: at similarity exactly 0.85 the scorer takes the
sweet-spot branch, producing relevance `min(1, 0.85 × 1.2) = 1` and novelty
`0.5`, not `0.85 × 0.5` and `0.2` as the claim (which includes `s = 0.85` in
the echo band) requires. -/
theorem C3_counterexample :
    apply_mmr_scoring defaultScorer [Item.mem ⟨"b", "cb", 17/20, none, []⟩] =
      [⟨Item.mem ⟨"b", "cb", 17/20, none, []⟩, 1, 1, 1/2⟩] ∧
    ¬ ((1 : ℚ) = (17/20) * (1/2) ∧ ((1:ℚ)/2) = 1/5) := by
  constructor
  · norm_num [apply_mmr_scoring, applyMmrAux, mmrBand, mmrSim, defaultScorer]
  · rintro ⟨h1, -⟩
    norm_num at h1

/-- C4 (amended): on memories of similarities 0.95, 0.75, 0.40 (no
last-accessed timestamps) the scorer yields (relevance, novelty) tuples
(0.475, 0.2), (0.9, 0.5), (0.32, 0.8): under the code's sweet-spot rule
`novelty = clamp(1 − (s − 0.65)/0.2, 0.5, 1.0)` the 0.75-item gets novelty
0.5, not ≈1.0; `filter_and_rank` then orders them 0.9, 0.475, 0.32. -/
theorem C4_doughnut_scenario (lnq : ℤ → ℚ) :
    apply_mmr_scoring defaultScorer
        [Item.mem ⟨"m1", "c1", 19/20, none, []⟩,
         Item.mem ⟨"m2", "c2", 3/4, none, []⟩,
         Item.mem ⟨"m3", "c3", 2/5, none, []⟩] =
      [⟨Item.mem ⟨"m1", "c1", 19/20, none, []⟩, 19/40, 19/40, 1/5⟩,
       ⟨Item.mem ⟨"m2", "c2", 3/4, none, []⟩, 9/10, 9/10, 1/2⟩,
       ⟨Item.mem ⟨"m3", "c3", 2/5, none, []⟩, 8/25, 8/25, 4/5⟩] ∧
    filter_and_rank defaultScorer lnq
        [Item.mem ⟨"m1", "c1", 19/20, none, []⟩,
         Item.mem ⟨"m2", "c2", 3/4, none, []⟩,
         Item.mem ⟨"m3", "c3", 2/5, none, []⟩] 3 =
      [⟨Item.mem ⟨"m2", "c2", 3/4, none, []⟩, 9/10, 9/10, 1/2⟩,
       ⟨Item.mem ⟨"m1", "c1", 19/20, none, []⟩, 19/40, 19/40, 1/5⟩,
       ⟨Item.mem ⟨"m3", "c3", 2/5, none, []⟩, 8/25, 8/25, 4/5⟩] := by
  constructor
  · norm_num [apply_mmr_scoring, applyMmrAux, mmrBand, mmrSim, defaultScorer]
  · norm_num [filter_and_rank, apply_mmr_scoring, applyMmrAux, mmrBand,
      mmrSim, defaultScorer, apply_temporal_boost, List.filter, sortDesc,
      insertDesc]

/-- C4 counterexample: the item at similarity 0.75 receives novelty exactly
0.5, which is not approximately 1.0 (it is not even within 0.05 of 1). -/
theorem C4_counterexample :
    ((apply_mmr_scoring defaultScorer
        [Item.mem ⟨"m1", "c1", 19/20, none, []⟩,
         Item.mem ⟨"m2", "c2", 3/4, none, []⟩,
         Item.mem ⟨"m3", "c3", 2/5, none, []⟩]).get
      ⟨1, (apply_mmr_scoring_length defaultScorer _).symm ▸ (by norm_num)⟩).nov
      = 1/2 ∧
    ¬ (|(1:ℚ)/2 - 1| ≤ 1/20) := by
  constructor
  · have hget := apply_mmr_scoring_get defaultScorer
      [Item.mem ⟨"m1", "c1", 19/20, none, []⟩,
       Item.mem ⟨"m2", "c2", 3/4, none, []⟩,
       Item.mem ⟨"m3", "c3", 2/5, none, []⟩] 1 (by norm_num)
    rw [hget]
    norm_num [mmrBand, mmrSim, defaultScorer]
  · intro h
    rw [abs_le] at h
    have := h.1
    norm_num at this

/-- C7: every `SearchResult` at position `k` of the scored list is assigned
the synthetic similarity `max(0.65, 0.85 − 0.05·k)` (`k` being its position
in the whole, possibly interleaved, list); the synthetic value always lies in
`[0.65, 0.85]`, hence in the (inclusive-right) sweet-spot branch: relevance
gets the `×1.2` sweet-spot bonus and novelty lies in `[0.5, 1]` — including
position 0, whose synthetic similarity is exactly 0.85. -/
theorem C7_web_synthetic_sweet_spot (items : List Item) (k : ℕ)
    (h : k < items.length) (r : SearchResult)
    (hw : items.get ⟨k, h⟩ = Item.web r) :
    mmrSim k (items.get ⟨k, h⟩) = max (13/20) (17/20 - (k : ℚ) * (1/20)) ∧
    (13/20 ≤ mmrSim k (items.get ⟨k, h⟩) ∧
      mmrSim k (items.get ⟨k, h⟩) ≤ 17/20) ∧
    ((apply_mmr_scoring defaultScorer items).get
        ⟨k, (apply_mmr_scoring_length defaultScorer items).symm ▸ h⟩).rel =
      min 1 (mmrSim k (items.get ⟨k, h⟩) * (6/5)) ∧
    (1/2 ≤ ((apply_mmr_scoring defaultScorer items).get
        ⟨k, (apply_mmr_scoring_length defaultScorer items).symm ▸ h⟩).nov ∧
      ((apply_mmr_scoring defaultScorer items).get
        ⟨k, (apply_mmr_scoring_length defaultScorer items).symm ▸ h⟩).nov ≤ 1) := by
  have hsim : mmrSim k (items.get ⟨k, h⟩) =
      max (13/20) (17/20 - (k : ℚ) * (1/20)) := by rw [hw]; rfl
  have hlo : (13/20 : ℚ) ≤ mmrSim k (items.get ⟨k, h⟩) := by
    rw [hsim]; exact le_max_left _ _
  have hhi : mmrSim k (items.get ⟨k, h⟩) ≤ 17/20 := by
    rw [hsim]
    refine max_le (by norm_num) ?_
    have : (0:ℚ) ≤ (k : ℚ) * (1/20) := by positivity
    linarith
  have hget := apply_mmr_scoring_get defaultScorer items k h
  have hband : mmrBand defaultScorer (mmrSim k (items.get ⟨k, h⟩)) =
      (min 1 (mmrSim k (items.get ⟨k, h⟩) * (6/5)),
       max (1/2) (min 1 (1 - (mmrSim k (items.get ⟨k, h⟩) - 13/20) /
          (17/20 - 13/20)))) := by
    unfold mmrBand defaultScorer
    rw [if_neg (by exact not_lt.mpr hhi), if_pos ⟨hlo, hhi⟩]
  refine ⟨hsim, ⟨hlo, hhi⟩, ?_, ?_, ?_⟩
  · rw [hget, hband]
  · rw [hget, hband]
    exact le_max_left _ _
  · rw [hget, hband]
    refine max_le (by norm_num) ?_
    exact le_trans (min_le_left _ _) (by norm_num)

/-- C7 witness: web results at positions 0 and 2 of a mixed list get
synthetic similarities 0.85 and 0.75, both scored in the sweet-spot band. -/
theorem C7_web_synthetic_sweet_spot_witness :
    mmrSim 0 (([Item.web ⟨"t0", "u0", "x0", 1/2⟩,
        Item.mem ⟨"wm", "cm", 7/10, none, []⟩,
        Item.web ⟨"t2", "u2", "x2", 1/2⟩]).get ⟨0, by norm_num⟩) =
      max (13/20) (17/20 - (0 : ℚ) * (1/20)) ∧
    mmrSim 2 (([Item.web ⟨"t0", "u0", "x0", 1/2⟩,
        Item.mem ⟨"wm", "cm", 7/10, none, []⟩,
        Item.web ⟨"t2", "u2", "x2", 1/2⟩]).get ⟨2, by norm_num⟩) =
      max (13/20) (17/20 - (2 : ℚ) * (1/20)) :=
  ⟨(C7_web_synthetic_sweet_spot
      [Item.web ⟨"t0", "u0", "x0", 1/2⟩,
       Item.mem ⟨"wm", "cm", 7/10, none, []⟩,
       Item.web ⟨"t2", "u2", "x2", 1/2⟩] 0 (by norm_num)
      ⟨"t0", "u0", "x0", 1/2⟩ rfl).1,
   (C7_web_synthetic_sweet_spot
      [Item.web ⟨"t0", "u0", "x0", 1/2⟩,
       Item.mem ⟨"wm", "cm", 7/10, none, []⟩,
       Item.web ⟨"t2", "u2", "x2", 1/2⟩] 2 (by norm_num)
      ⟨"t2", "u2", "x2", 1/2⟩ rfl).1⟩

/-- C9: `combine_results` is a deterministic round-robin: it emits at most
`max_total` items; the output is the untagging of the round-robin over the
index-tagged strategy lists, and for every strategy index `j` the items drawn
from strategy `j` form a prefix of that strategy's item list in order; with
three strategies each holding at least one item (and `max_total ≥ 3`) the
first three outputs are `A[0], B[0], C[0]` in that order. -/
theorem C9_combine_results_round_robin (rs : List OrthogonalResult) (mt : ℕ) :
    (combine_results rs mt).1.length ≤ mt ∧
    (combine_results rs mt).1 =
      (roundRobin (tagLists 0 (rs.map (·.items))) mt).map Prod.snd ∧
    (∀ j : ℕ, ∃ rest,
      ((roundRobin (tagLists 0 (rs.map (·.items))) mt).filter
          (fun p => p.1 == j)).map Prod.snd ++ rest =
        (rs.map (·.items)).getD j []) ∧
    (∀ r1 r2 r3 : OrthogonalResult, ∀ (a b c : SearchResult)
        (as bs cs : List SearchResult),
      rs = [r1, r2, r3] → r1.items = a :: as → r2.items = b :: bs →
      r3.items = c :: cs → 3 ≤ mt →
      (combine_results rs mt).1.take 3 = [a, b, c]) := by
  refine ⟨?_, ?_, ?_, ?_⟩
  · exact roundRobinAux_length (mt + 1) _ [] mt (by simp)
  · have : (roundRobin (tagLists 0 (rs.map (·.items))) mt).map Prod.snd =
        roundRobin (rs.map (·.items)) mt := by
      rw [← roundRobin_map, tagLists_map_snd]
    exact this.symm
  · intro j
    obtain ⟨rest0, hrest0⟩ := roundRobinAux_filter (fun p => p.1 == j)
      (mt + 1) (tagLists 0 (rs.map (·.items))) [] mt j
      (by
        intro p hp
        rw [tagLists_getD] at hp
        obtain ⟨y, _, rfl⟩ := List.mem_map.mp hp
        simp)
      (by
        intro i hi p hp
        rw [tagLists_getD] at hp
        obtain ⟨y, _, rfl⟩ := List.mem_map.mp hp
        simpa using hi)
    refine ⟨rest0.map Prod.snd, ?_⟩
    have hmap := congrArg (List.map Prod.snd) hrest0
    rw [List.map_append] at hmap
    simp only [roundRobin]
    rw [hmap]
    rw [tagLists_getD]
    simp [List.map_map, Function.comp]
  · rintro r1 r2 r3 a b c as bs cs rfl h1 h2 h3 hmt
    have hlists : [r1, r2, r3].map (·.items) = [a :: as, b :: bs, c :: cs] := by
      simp [h1, h2, h3]
    show (roundRobin ([r1, r2, r3].map (·.items)) mt).take 3 = [a, b, c]
    rw [hlists]
    obtain ⟨m, rfl⟩ : ∃ m, mt = m + 3 :=
      ⟨mt - 3, by omega⟩
    show (roundRobinAux (m + 3 + 1) [a :: as, b :: bs, c :: cs] [] (m + 3)).take 3
      = [a, b, c]
    have honep : onePass [a :: as, b :: bs, c :: cs] (m + 3) =
        ([a, b, c], [as, bs, cs]) := rfl
    rw [roundRobinAux_succ]
    rw [if_pos (show ([] : List SearchResult).length < m + 3 by simp)]
    simp only [List.length_nil, Nat.sub_zero, honep]
    rw [if_neg (by simp)]
    simp only [List.nil_append]
    obtain ⟨t, ht⟩ := roundRobinAux_prefix (m + 3) [as, bs, cs] [a, b, c] (m + 3)
    rw [ht]
    rfl

/-- C9 witness: three one-item strategies at `max_total = 6` emit their heads
in order. -/
theorem C9_round_robin_witness :
    (combine_results
        [⟨[⟨"t1", "u1", "x1", 1/2⟩], "noise_injection", "q1", none, none, [], none⟩,
         ⟨[⟨"t2", "u2", "x2", 1/2⟩], "archetype_bridge", "q2", none, none, [], none⟩,
         ⟨[⟨"t3", "u3", "x3", 1/2⟩], "cross_domain", "q3", none, none, [], none⟩]
        6).1.take 3 =
      [⟨"t1", "u1", "x1", 1/2⟩, ⟨"t2", "u2", "x2", 1/2⟩,
       ⟨"t3", "u3", "x3", 1/2⟩] :=
  (C9_combine_results_round_robin _ 6).2.2.2 _ _ _ _ _ _ _ _ _
    rfl rfl rfl rfl (by norm_num)

/-- C2 (amended): in the graph path, echo-band anchors (similarity ≥ 0.85 to
the query) are never added to the candidate pool as anchors — every returned
memory is either a sweet-band anchor, whose similarity to the query lies in
[0.65, 0.85), or a memory fetched through `get_related` with edge kinds
{derives, extends, contrast}; `get_related` neighbors, however, carry no
similarity filter against the original query, so only anchor-originated
results are guaranteed below the echo ceiling. -/
theorem C2_graph_path_bands (env : StoreEnv) (sim : String → String → ℚ)
    (lnq : ℤ → ℚ) (q : String) (ms : List Memory)
    (hco : Coherent env sim)
    (hres : check_graph defaultSettings env lnq q = some ms) :
    ∀ m ∈ ms,
      (13/20 ≤ sim m.id q ∧ sim m.id q < 17/20 ∧
        m ∈ graphAnchors defaultSettings env q) ∨
      (∃ a ∈ graphAnchors defaultSettings env q,
        m ∈ get_related env a.id ["derives", "extends", "contrast"]) := by
  intro m hm
  -- extract the returned list from the success branch of `check_graph`
  unfold check_graph at hres
  split at hres
  · exact absurd hres (by simp)
  · split at hres
    · exact absurd hres (by simp)
    · split at hres
      · exact absurd hres (by simp)
      · split at hres
        · exact absurd hres (by simp)
        · -- hres : some (filterMap ...) = some ms
          have hms := Option.some.inj hres
          rw [← hms] at hm
          obtain ⟨s, hsmem, hsm⟩ := List.mem_filterMap.mp hm
          have hitem : s.item = Item.mem m := by
            cases hit : s.item with
            | mem m0 => rw [hit] at hsm; simp at hsm; rw [hsm]
            | web r0 => rw [hit] at hsm; simp at hsm
          rw [graphScored] at hsmem
          have hin : s.item ∈ (dedupeBy (·.id)
              (graphCandidates defaultSettings env q) []).map Item.mem :=
            filter_and_rank_item _ _ _ _ s hsmem
          rw [hitem] at hin
          obtain ⟨m1, hm1, hm1eq⟩ := List.mem_map.mp hin
          have hmeq : m1 = m := by simpa using hm1eq
          rw [hmeq] at hm1
          have hcand : m ∈ graphCandidates defaultSettings env q :=
            mem_dedupeBy _ _ _ m hm1
          unfold graphCandidates at hcand
          rcases List.mem_append.mp hcand with hsw | hnb
          · -- sweet-band anchor
            left
            unfold graphSweet at hsw
            have := List.mem_filter.mp hsw
            obtain ⟨hanch, hcond⟩ := this
            have hcond2 : 13/20 ≤ m.similarity ∧ m.similarity < 17/20 := by
              simpa [defaultSettings] using of_decide_eq_true hcond
            have hsimeq : m.similarity = sim m.id q :=
              hco q defaultSettings.max_anchors (1/2) m hanch
            exact ⟨by rw [← hsimeq]; exact hcond2.1,
              by rw [← hsimeq]; exact hcond2.2, hanch⟩
          · -- graph neighbor
            right
            unfold graphNeighbors at hnb
            rcases List.mem_append.mp hnb with hecho | hsweet
            · obtain ⟨l, hl, hml⟩ := List.mem_flatten.mp hecho
              obtain ⟨a, ha, rfl⟩ := List.mem_map.mp hl
              refine ⟨a, ?_, hml⟩
              have ha2 : a ∈ graphEcho defaultSettings env q :=
                List.mem_of_mem_take ha
              exact (List.mem_filter.mp ha2).1
            · obtain ⟨l, hl, hml⟩ := List.mem_flatten.mp hsweet
              obtain ⟨a, ha, rfl⟩ := List.mem_map.mp hl
              refine ⟨a, ?_, hml⟩
              have ha2 : a ∈ graphSweet defaultSettings env q :=
                (List.mem_filter.mp ha).1
              exact (List.mem_filter.mp ha2).1

/-- A concrete store for exercising C2: one anchor `A` at similarity 0.90 to
the query `q`, which `get_related` re-retrieves (searching by the anchor's
own content) at similarity 0.95, carrying a `derives` relationship. -/
def c2mem (s : ℚ) : Memory := ⟨"A", "AAAA", s, none, [⟨"derives", ""⟩]⟩

def c2env : StoreEnv where
  search := fun qq _ _ =>
    if qq = "q" then [c2mem (9/10)]
    else if qq = "AAAA" then [c2mem (19/20)] else []
  getContent := fun i => if i = "A" then some "AAAA" else none

def c2sim : String → String → ℚ := fun i qq =>
  if i = "A" then (if qq = "q" then 9/10 else 19/20) else 0

theorem c2_coherent : Coherent c2env c2sim := by
  intro qq k t m hm
  by_cases h1 : qq = "q"
  · subst h1
    have : m = c2mem (9/10) := by
      simpa [c2env] using hm
    rw [this]
    norm_num [c2mem, c2sim]
  · by_cases h2 : qq = "AAAA"
    · subst h2
      have : m = c2mem (19/20) := by
        simpa [c2env, h1] using hm
      rw [this]
      have hq : ("AAAA" : String) ≠ "q" := by decide
      norm_num [c2mem, c2sim, hq]
    · simp [c2env, h1, h2] at hm

theorem c2_check_graph_eval :
    check_graph defaultSettings c2env (fun _ => 0) "q" = some [c2mem (19/20)] := by
  have hAnch : graphAnchors defaultSettings c2env "q" = [c2mem (9/10)] := rfl
  have hEcho : graphEcho defaultSettings c2env "q" = [c2mem (9/10)] := by
    norm_num [graphEcho, hAnch, c2mem, defaultSettings, List.filter]
  have hSweet : graphSweet defaultSettings c2env "q" = [] := by
    norm_num [graphSweet, hAnch, c2mem, defaultSettings, List.filter]
  have hTake : pyTake "AAAA" 500 = "AAAA" := rfl
  have hRel : get_related c2env "A" ["derives", "extends", "contrast"] =
      [c2mem (19/20)] := by
    have hGet : c2env.getContent "A" = some "AAAA" := rfl
    have hSearch : c2env.search "AAAA" 10 (3/10) = [c2mem (19/20)] := rfl
    have hstrip : pyStripChild "derives" = "derives" := rfl
    unfold get_related
    rw [hGet]
    simp [hTake, hSearch, c2mem, hstrip]
  have hNeigh : graphNeighbors c2env [c2mem (9/10)] [] = [c2mem (19/20)] := by
    have hid : (c2mem (9/10)).id = "A" := rfl
    simp [graphNeighbors, hid, hRel]
  have hCand : graphCandidates defaultSettings c2env "q" = [c2mem (19/20)] := by
    rw [graphCandidates, hSweet, hEcho, hNeigh]
    rfl
  have hFR : filter_and_rank defaultScorer (fun _ => 0)
      [Item.mem (c2mem (19/20))] 3 =
      [⟨Item.mem (c2mem (19/20)), 19/40, 19/40, 1/5⟩] := by
    norm_num [filter_and_rank, apply_mmr_scoring, applyMmrAux, mmrBand,
      mmrSim, defaultScorer, apply_temporal_boost, c2mem, List.filter,
      sortDesc, insertDesc]
  have hUniq : dedupeBy (·.id) [c2mem (19/20)] [] = [c2mem (19/20)] := by
    simp [dedupeBy]
  have hScored : graphScored defaultSettings c2env (fun _ => 0) "q" =
      [⟨Item.mem (c2mem (19/20)), 19/40, 19/40, 1/5⟩] := by
    unfold graphScored
    rw [hCand, hUniq]
    exact hFR
  unfold check_graph
  rw [hAnch, hCand, hUniq, hScored]
  rw [if_neg (by simp), if_neg (by simp), if_neg (by simp), if_neg (by simp)]
  rfl

/-- C2 counterexample: with the store `c2env` (coherent with the ground-truth
similarity `c2sim`), the graph path surfaces the echo-band anchor itself —
`get_related` re-retrieves it as its own neighbor, no similarity filter is
applied to neighbors, and the doughnut scorer keeps it — so the returned
memory has similarity 0.90 ≥ 0.85 to the query. -/
theorem C2_counterexample :
    Coherent c2env c2sim ∧
    check_graph defaultSettings c2env (fun _ => 0) "q" = some [c2mem (19/20)] ∧
    c2sim (c2mem (19/20)).id "q" = 9/10 ∧
    ¬ (c2sim (c2mem (19/20)).id "q" < 17/20) := by
  refine ⟨c2_coherent, c2_check_graph_eval, by norm_num [c2sim, c2mem],
    by norm_num [c2sim, c2mem]⟩

/-- C2 witness: the amended theorem applied to the concrete store `c2env`:
the surfaced memory comes from a `get_related` fetch of an anchor. -/
theorem C2_graph_path_bands_witness :
    (13/20 ≤ c2sim (c2mem (19/20)).id "q" ∧
      c2sim (c2mem (19/20)).id "q" < 17/20 ∧
      c2mem (19/20) ∈ graphAnchors defaultSettings c2env "q") ∨
    (∃ a ∈ graphAnchors defaultSettings c2env "q",
      c2mem (19/20) ∈ get_related c2env a.id
        ["derives", "extends", "contrast"]) := by
  exact C2_graph_path_bands c2env c2sim (fun _ => 0) "q" [c2mem (19/20)]
    c2_coherent c2_check_graph_eval (c2mem (19/20)) (by simp)

theorem apply_weight_boost_strategy (w : StrategyWeights)
    (c : ScoredCandidate) : (apply_weight_boost w c).strategy = c.strategy :=
  rfl

/-- C1: with the `OpenAISynthesizer` of this codebase (which defines none of
`extract_vibe`, `generate_archetype_query`, `describe_vector_vibe`,
`get_embedding`, `get_embeddings_batch`), `search_all_strategies` raises
`AttributeError` at its first await — before any strategy runs —
`_fetch_orthogonal` catches it and returns the empty list, and hence no
candidate of `route_weighted` (pool or final ranking) ever has
`strategy = "orthogonal"`. -/
theorem C1_no_orthogonal_candidates (env : RouterEnv) (query ctx : String)
    (n : ℕ) (includeVM : Bool) (mems : List Memory) (lam : ℚ) (limit : ℕ)
    (w : StrategyWeights) (maxSug : ℕ) :
    openAISynthesizer.extract_vibe = none ∧
    search_all_strategies openAISynthesizer env ctx query n includeVM mems =
      .error .attributeError ∧
    fetch_orthogonal openAISynthesizer env query ctx lam limit = [] ∧
    (∀ c ∈ routeWeightedCandidates openAISynthesizer env query ctx w,
      c.strategy ≠ "orthogonal") ∧
    (∀ c ∈ routeWeightedTop openAISynthesizer env query ctx w maxSug,
      c.strategy ≠ "orthogonal") := by
  have hfetch : ∀ (lam2 : ℚ) (limit2 : ℕ),
      fetch_orthogonal openAISynthesizer env query ctx lam2 limit2 = [] :=
    fun _ _ => rfl
  have hcand : ∀ c ∈ routeWeightedCandidates openAISynthesizer env query ctx w,
      c.strategy ≠ "orthogonal" := by
    intro c hc
    unfold routeWeightedCandidates at hc
    obtain ⟨t, ht, hct⟩ := List.mem_flatMap.mp hc
    unfold routeWeightedTasks at ht
    rcases List.mem_append.mp ht with ht1 | ht23
    · rcases List.mem_append.mp ht1 with htA | htB
      · -- the orthogonal track: its items are empty
        by_cases hser : (1:ℚ)/5 < w.serendipity
        · rw [if_pos hser] at htA
          have ht2 := List.mem_singleton.mp htA
          rw [ht2] at hct
          rw [hfetch] at hct
          simp at hct
        · rw [if_neg hser] at htA
          simp at htA
      · -- local vector track
        by_cases hloc : 0 < limitLocal w
        · rw [if_pos hloc] at htB
          have ht2 := List.mem_singleton.mp htB
          obtain ⟨it, _, rfl⟩ := List.mem_map.mp hct
          rw [ht2]
          exact (show ("vector" : String) ≠ "orthogonal" by decide)
        · rw [if_neg hloc] at htB
          simp at htB
    · -- web vector track
      by_cases hweb : 0 < limitWeb w
      · rw [if_pos hweb] at ht23
        have ht2 := List.mem_singleton.mp ht23
        obtain ⟨it, _, rfl⟩ := List.mem_map.mp hct
        rw [ht2]
        exact (show ("vector" : String) ≠ "orthogonal" by decide)
      · rw [if_neg hweb] at ht23
        simp at ht23
  refine ⟨rfl, rfl, hfetch lam limit, hcand, ?_⟩
  intro c hc
  have h1 : c ∈ routeWeightedUnique openAISynthesizer env query ctx w :=
    List.mem_of_mem_take hc
  unfold routeWeightedUnique at h1
  have h2 := mem_dedupeBy _ _ _ c h1
  unfold routeWeightedSorted at h2
  have h3 := (mem_sortDesc _ _ c).mp h2
  obtain ⟨c0, hc0, rfl⟩ := List.mem_map.mp h3
  rw [apply_weight_boost_strategy]
  exact hcand c0 hc0

/-- C1 witness: a store with one local memory produces a non-empty weighted
pool all of whose candidates are non-orthogonal. -/
theorem C1_no_orthogonal_candidates_witness :
    (⟨Item.mem ⟨"w1", "cw1", 1/2, none, []⟩, "supermemory", "vector",
        1/2, 1/2⟩ : ScoredCandidate).strategy ≠ "orthogonal" := by
  refine (C1_no_orthogonal_candidates
    ⟨fun _ _ => [], fun _ _ => [⟨"w1", "cw1", 1/2, none, []⟩],
     fun _ => none, fun _ => "", fun _ => "",
     fun _ _ _ => { items := [], strategy := "pca", query_used := "" },
     fun _ _ _ _ => { items := [], strategy := "antonym", query_used := "" },
     fun _ _ _ _ _ => { items := [], strategy := "bridge", query_used := "" }⟩
    "q" "c" 1 true [] 1 3 ⟨1, 1, 0, 1, ""⟩ 3).2.2.2.1
    ⟨Item.mem ⟨"w1", "cw1", 1/2, none, []⟩, "supermemory", "vector", 1/2, 1/2⟩
    ?_
  unfold routeWeightedCandidates routeWeightedTasks
  have hlw : limitWeb ⟨1, 1, 0, 1, ""⟩ = 0 := by
    unfold limitWeb
    rw [if_neg (by norm_num)]
  have hll : limitLocal ⟨1, 1, 0, 1, ""⟩ = 10 := by
    unfold limitLocal pyInt
    rw [if_pos (by norm_num)]
    rw [if_pos (by norm_num)]
    have : ((10:ℚ) * 1) = ((10:ℤ) : ℚ) := by norm_num
    rw [this, Int.floor_intCast]
    rfl
  rw [hlw, hll]
  rw [if_pos (by norm_num), if_pos (by norm_num), if_neg (by norm_num)]
  simp [rawScore]

/-- C5: in `route_weighted`, `limit_web = max(1, ⌊10·source_web⌋)` when
`source_web > 0.1` and 0 otherwise (int() truncation equals the floor for
the non-negative weights), analogously `limit_local`; the orthogonal fetch is
dispatched exactly when `serendipity > 0.2`, with
`lambda_surprise = 1.5·serendipity` and budget
`min(3, limit_web + limit_local)`; for the weights (serendipity=0.9,
relevance=0.1, source_web=0.2, source_local=0.9) the budgets are local=9,
web=2, and both the orthogonal and the local-vector track are dispatched. -/
theorem C5_weighted_budgets (synth : Synth) (env : RouterEnv) (q ctx : String)
    (w : StrategyWeights) :
    limitWeb w = (if 1/10 < w.source_web then
      max 1 (Int.toNat ⌊(10:ℚ) * w.source_web⌋) else 0) ∧
    limitLocal w = (if 1/10 < w.source_local then
      max 1 (Int.toNat ⌊(10:ℚ) * w.source_local⌋) else 0) ∧
    ((1:ℚ)/5 < w.serendipity ↔
      (⟨"mixed", "orthogonal",
        (fetch_orthogonal synth env q ctx (w.serendipity * (3/2))
          (min 3 (limitWeb w + limitLocal w))).map Item.web⟩ : TaskRes) ∈
        routeWeightedTasks synth env q ctx w) ∧
    limitLocal ⟨9/10, 1/10, 1/5, 9/10, ""⟩ = 9 ∧
    limitWeb ⟨9/10, 1/10, 1/5, 9/10, ""⟩ = 2 ∧
    (⟨"mixed", "orthogonal",
      (fetch_orthogonal synth env q ctx
        ((9/10 : ℚ) * (3/2))
        (min 3 (limitWeb ⟨9/10, 1/10, 1/5, 9/10, ""⟩ +
          limitLocal ⟨9/10, 1/10, 1/5, 9/10, ""⟩))).map Item.web⟩ : TaskRes) ∈
      routeWeightedTasks synth env q ctx ⟨9/10, 1/10, 1/5, 9/10, ""⟩ ∧
    (⟨"supermemory", "vector",
      (env.smSearch q (limitLocal ⟨9/10, 1/10, 1/5, 9/10, ""⟩)).map
        Item.mem⟩ : TaskRes) ∈
      routeWeightedTasks synth env q ctx ⟨9/10, 1/10, 1/5, 9/10, ""⟩ := by
  have hfloor : ∀ x : ℚ, 0 ≤ x → pyInt x = ⌊x⌋ := by
    intro x hx
    unfold pyInt
    rw [if_pos hx]
  have h9 : limitLocal ⟨9/10, 1/10, 1/5, 9/10, ""⟩ = 9 := by
    unfold limitLocal pyInt
    rw [if_pos (by norm_num), if_pos (by norm_num)]
    have : ((10:ℚ) * (9/10)) = ((9:ℤ) : ℚ) := by norm_num
    rw [this, Int.floor_intCast]
    rfl
  have h2 : limitWeb ⟨9/10, 1/10, 1/5, 9/10, ""⟩ = 2 := by
    unfold limitWeb pyInt
    rw [if_pos (by norm_num), if_pos (by norm_num)]
    have : ((10:ℚ) * (1/5)) = ((2:ℤ) : ℚ) := by norm_num
    rw [this, Int.floor_intCast]
    rfl
  refine ⟨?_, ?_, ?_, h9, h2, ?_, ?_⟩
  · unfold limitWeb
    by_cases hc : (1:ℚ)/10 < w.source_web
    · rw [if_pos hc, if_pos hc, hfloor _ (by positivity)]
    · rw [if_neg hc, if_neg hc]
  · unfold limitLocal
    by_cases hc : (1:ℚ)/10 < w.source_local
    · rw [if_pos hc, if_pos hc, hfloor _ (by positivity)]
    · rw [if_neg hc, if_neg hc]
  · constructor
    · intro hser
      unfold routeWeightedTasks
      rw [if_pos hser]
      exact List.mem_append_left _ (List.mem_append_left _
        (List.mem_singleton.mpr rfl))
    · intro hmem
      unfold routeWeightedTasks at hmem
      by_cases hser : (1:ℚ)/5 < w.serendipity
      · exact hser
      · rw [if_neg hser] at hmem
        simp only [List.nil_append] at hmem
        rcases List.mem_append.mp hmem with hB | hC
        · by_cases hloc : 0 < limitLocal w
          · rw [if_pos hloc] at hB
            have heq := List.mem_singleton.mp hB
            exact absurd (congrArg TaskRes.strategy heq)
              (show ¬("orthogonal" : String) = "vector" by decide)
          · rw [if_neg hloc] at hB
            simp at hB
        · by_cases hweb : 0 < limitWeb w
          · rw [if_pos hweb] at hC
            have heq := List.mem_singleton.mp hC
            exact absurd (congrArg TaskRes.strategy heq)
              (show ¬("orthogonal" : String) = "vector" by decide)
          · rw [if_neg hweb] at hC
            simp at hC
  · unfold routeWeightedTasks
    rw [if_pos (by norm_num)]
    exact List.mem_append_left _ (List.mem_append_left _
      (List.mem_singleton.mpr rfl))
  · unfold routeWeightedTasks
    rw [if_pos (by norm_num)]
    rw [if_pos (by rw [h9]; norm_num)]
    exact List.mem_append_left _ (List.mem_append_right _
      (List.mem_append_left _ (List.mem_singleton.mpr rfl)))

/-- C5 witness: the budget formulas at the scenario weights. -/
theorem C5_weighted_budgets_witness :
    limitLocal ⟨9/10, 1/10, 1/5, 9/10, ""⟩ = 9 ∧
    limitWeb ⟨9/10, 1/10, 1/5, 9/10, ""⟩ = 2 :=
  ⟨(C5_weighted_budgets ⟨none, none, none, none, none⟩
      ⟨fun _ _ => [], fun _ _ => [], fun _ => none, fun _ => "", fun _ => "",
       fun _ _ _ => { items := [], strategy := "pca", query_used := "" },
       fun _ _ _ _ => { items := [], strategy := "antonym", query_used := "" },
       fun _ _ _ _ _ => { items := [], strategy := "bridge", query_used := "" }⟩
      "q" "c" ⟨9/10, 1/10, 1/5, 9/10, ""⟩).2.2.2.1,
   (C5_weighted_budgets ⟨none, none, none, none, none⟩
      ⟨fun _ _ => [], fun _ _ => [], fun _ => none, fun _ => "", fun _ => "",
       fun _ _ _ => { items := [], strategy := "pca", query_used := "" },
       fun _ _ _ _ => { items := [], strategy := "antonym", query_used := "" },
       fun _ _ _ _ _ => { items := [], strategy := "bridge", query_used := "" }⟩
      "q" "c" ⟨9/10, 1/10, 1/5, 9/10, ""⟩).2.2.2.2.1⟩

/-- C6: for every input, `route_weighted` returns at most `max_suggestions`
candidates, their content fingerprints (first 100 characters for a Memory,
the URL for a SearchResult) are pairwise distinct, the output is ordered by
non-increasing adjusted score, and for every boosted candidate the dedupe
keeps a candidate with the same fingerprint and an adjusted score at least
as high. -/
theorem C6_route_weighted_invariants (synth : Synth) (env : RouterEnv)
    (q ctx : String) (w : StrategyWeights) (maxSug : ℕ) :
    (routeWeightedTop synth env q ctx w maxSug).length ≤ maxSug ∧
    ((routeWeightedTop synth env q ctx w maxSug).map
      (fun c => fingerprint c.item)).Nodup ∧
    (routeWeightedTop synth env q ctx w maxSug).Pairwise
      (fun a b => b.adjusted_score ≤ a.adjusted_score) ∧
    (∀ c ∈ (routeWeightedCandidates synth env q ctx w).map
        (apply_weight_boost w),
      ∃ c' ∈ routeWeightedUnique synth env q ctx w,
        fingerprint c'.item = fingerprint c.item ∧
          c.adjusted_score ≤ c'.adjusted_score) := by
  have hpair : (routeWeightedSorted synth env q ctx w).Pairwise
      (fun a b => b.adjusted_score ≤ a.adjusted_score) :=
    sortDesc_pairwise (fun c : ScoredCandidate => c.adjusted_score) _
  have hsub : List.Sublist (routeWeightedUnique synth env q ctx w)
      (routeWeightedSorted synth env q ctx w) :=
    dedupeBy_sublist _ _ _
  refine ⟨?_, ?_, ?_, ?_⟩
  · exact List.length_take_le _ _
  · have hnd := (dedupeBy_nodup (fun c => fingerprint c.item)
      (routeWeightedSorted synth env q ctx w) []).2
    have : (routeWeightedTop synth env q ctx w maxSug).map
        (fun c => fingerprint c.item) =
        ((routeWeightedUnique synth env q ctx w).map
          (fun c => fingerprint c.item)).take maxSug := by
      unfold routeWeightedTop
      rw [List.map_take]
    rw [this]
    exact hnd.sublist (List.take_sublist _ _)
  · exact ((hpair.sublist hsub).sublist (List.take_sublist _ _))
  · intro c hc
    have hc2 : c ∈ routeWeightedSorted synth env q ctx w := by
      unfold routeWeightedSorted
      exact (mem_sortDesc _ _ c).mpr hc
    have hkeep := dedupeBy_keeps_best (fun c => fingerprint c.item)
      (fun c => c.adjusted_score) (routeWeightedSorted synth env q ctx w)
      hpair [] c hc2 (by simp)
    exact hkeep

/-- C6 witness: the dedupe-keeps-best property at a concrete pool with one
local memory. -/
theorem C6_route_weighted_invariants_witness :
    ∃ c' ∈ routeWeightedUnique ⟨none, none, none, none, none⟩
      ⟨fun _ _ => [], fun _ _ => [⟨"w1", "cw1", 1/2, none, []⟩],
       fun _ => none, fun _ => "", fun _ => "",
       fun _ _ _ => { items := [], strategy := "pca", query_used := "" },
       fun _ _ _ _ => { items := [], strategy := "antonym", query_used := "" },
       fun _ _ _ _ _ => { items := [], strategy := "bridge", query_used := "" }⟩
      "q" "c" ⟨1, 1, 0, 1, ""⟩,
      fingerprint c'.item = fingerprint (apply_weight_boost ⟨1, 1, 0, 1, ""⟩
        ⟨Item.mem ⟨"w1", "cw1", 1/2, none, []⟩, "supermemory", "vector",
          1/2, 1/2⟩).item ∧
      (apply_weight_boost ⟨1, 1, 0, 1, ""⟩
        ⟨Item.mem ⟨"w1", "cw1", 1/2, none, []⟩, "supermemory", "vector",
          1/2, 1/2⟩).adjusted_score ≤ c'.adjusted_score := by
  refine (C6_route_weighted_invariants ⟨none, none, none, none, none⟩
    ⟨fun _ _ => [], fun _ _ => [⟨"w1", "cw1", 1/2, none, []⟩],
     fun _ => none, fun _ => "", fun _ => "",
     fun _ _ _ => { items := [], strategy := "pca", query_used := "" },
     fun _ _ _ _ => { items := [], strategy := "antonym", query_used := "" },
     fun _ _ _ _ _ => { items := [], strategy := "bridge", query_used := "" }⟩
    "q" "c" ⟨1, 1, 0, 1, ""⟩ 3).2.2.2
    (apply_weight_boost ⟨1, 1, 0, 1, ""⟩
      ⟨Item.mem ⟨"w1", "cw1", 1/2, none, []⟩, "supermemory", "vector",
        1/2, 1/2⟩) ?_
  apply List.mem_map_of_mem
  unfold routeWeightedCandidates routeWeightedTasks
  have hlw : limitWeb ⟨1, 1, 0, 1, ""⟩ = 0 := by
    unfold limitWeb
    rw [if_neg (by norm_num)]
  have hll : limitLocal ⟨1, 1, 0, 1, ""⟩ = 10 := by
    unfold limitLocal pyInt
    rw [if_pos (by norm_num)]
    rw [if_pos (by norm_num)]
    have : ((10:ℚ) * 1) = ((10:ℤ) : ℚ) := by norm_num
    rw [this, Int.floor_intCast]
    rfl
  rw [hlw, hll]
  rw [if_pos (by norm_num), if_pos (by norm_num), if_neg (by norm_num)]
  simp [rawScore]

/-- C8 (amended): every vector returned by a VectorMath operation is the
`v / (‖v‖ + 1e-10)` normalisation of some internal vector, and such a
normalisation has norm within `1e-6` of 1 whenever the pre-normalisation norm
is at least `1e-4`; with fewer than `pca_min_memories` (but at least one)
memories, `principal_component_search` returns the normalised centroid and an
empty subtracted-tags list — but with ZERO memories it normalises the zero
vector, whose result has norm 0, so the norm bound does not hold for every
input. -/
theorem C8_vector_norms (env : VectorMathR.EmbedEnv) (mems : List Memory)
    (lam alpha : ℝ) (ctx content src tgt : String) (tv : Option String) :
    (∃ wv, (VectorMathR.principal_component_search env mems lam).1 =
      VectorMathR.normalizeV wv) ∧
    (∃ wv, (VectorMathR.antonym_steering_search env ctx mems tv alpha).1 =
      VectorMathR.normalizeV wv) ∧
    (∃ wv, VectorMathR.bridge_vector_search env content src tgt =
      VectorMathR.normalizeV wv) ∧
    (∀ v : VectorMathR.Vec, 1 / 10 ^ 4 ≤ VectorMathR.norm v →
      1 - 1 / 10 ^ 6 ≤ VectorMathR.norm (VectorMathR.normalizeV v) ∧
        VectorMathR.norm (VectorMathR.normalizeV v) ≤ 1 + 1 / 10 ^ 6) ∧
    (mems.length < 5 →
      (VectorMathR.principal_component_search env mems lam).2 = [] ∧
      (mems ≠ [] → (VectorMathR.principal_component_search env mems lam).1 =
        VectorMathR.normalizeV (VectorMathR.centroid
          (mems.map fun m => env.embed (pyTake m.content 2000))))) := by
  have hplen : (VectorMathR.pcaEmbeddings env mems).length = mems.length :=
    List.length_map _ _
  refine ⟨?_, ?_, ?_, ?_, ?_⟩
  · unfold VectorMathR.principal_component_search
    by_cases hlen : (VectorMathR.pcaEmbeddings env mems).length < 5
    · rw [if_pos hlen]
      exact ⟨_, rfl⟩
    · rw [if_neg hlen]
      exact ⟨_, rfl⟩
  · unfold VectorMathR.antonym_steering_search
    exact ⟨_, rfl⟩
  · unfold VectorMathR.bridge_vector_search
    split
    · split
      · exact ⟨_, rfl⟩
      · exact ⟨_, rfl⟩
    · exact ⟨_, rfl⟩
  · exact fun v hv => VectorMathR.norm_normalizeV_band v hv
  · intro hlen
    unfold VectorMathR.principal_component_search
    rw [if_pos (by rw [hplen]; exact hlen)]
    refine ⟨rfl, ?_⟩
    intro hne
    have hpos : 0 < mems.length := List.length_pos.mpr hne
    rw [if_pos (by rw [hplen]; exact hpos)]
    rfl

/-- C8 counterexample: `principal_component_search` with zero user memories
(a case the claim explicitly includes) returns the normalised zero vector,
whose L2 norm is 0 — not within `1e-6` of 1. -/
theorem C8_counterexample :
    VectorMathR.norm ((VectorMathR.principal_component_search
      ⟨fun _ => [], fun _ => [], fun _ => ""⟩ [] 1).1) = 0 ∧
    ¬ (1 - 1 / 10 ^ 6 ≤ VectorMathR.norm
        ((VectorMathR.principal_component_search
          ⟨fun _ => [], fun _ => [], fun _ => ""⟩ [] 1).1)) := by
  have h : (VectorMathR.principal_component_search
      ⟨fun _ => [], fun _ => [], fun _ => ""⟩ [] 1).1 =
      VectorMathR.normalizeV (List.replicate 1536 0) := rfl
  rw [h, VectorMathR.norm_normalizeV, VectorMathR.norm_replicate_zero]
  norm_num

/-- C8 witness: the norm band at a concrete unit vector, and the sparse
fallback at one memory. -/
theorem C8_vector_norms_witness :
    (1 - 1 / 10 ^ 6 ≤ VectorMathR.norm (VectorMathR.normalizeV [(1:ℝ)]) ∧
      VectorMathR.norm (VectorMathR.normalizeV [(1:ℝ)]) ≤ 1 + 1 / 10 ^ 6) ∧
    (VectorMathR.principal_component_search
      ⟨fun _ => [(1:ℝ)], fun _ => [], fun _ => ""⟩
      [⟨"m", "c", 1/2, none, []⟩] 1).2 = [] := by
  constructor
  · refine (C8_vector_norms ⟨fun _ => [(1:ℝ)], fun _ => [], fun _ => ""⟩
      [] 1 1 "" "" "" "" none).2.2.2.1 [(1:ℝ)] ?_
    have : VectorMathR.norm [(1:ℝ)] = 1 := by
      unfold VectorMathR.norm VectorMathR.normSq
      simp
    rw [this]
    norm_num
  · exact ((C8_vector_norms ⟨fun _ => [(1:ℝ)], fun _ => [], fun _ => ""⟩
      [⟨"m", "c", 1/2, none, []⟩] 1 1 "" "" "" "" none).2.2.2.2
      (by norm_num)).1

/-- C10 counterexample: in `analyze_context` the Context Judge is awaited
before concept extraction (judge at index 0, extraction at index 1 of the
stage trace), so concept extraction does not precede the judge as claimed. -/
theorem C10_counterexample :
    analyzeTrace ⟨⟨1, 0, 0, 0, ""⟩, ["c1"],
        fun _ _ => [Item.web ⟨"t", "u", "x", 1/2⟩]⟩ =
      [PipeEv.judge, PipeEv.extract, PipeEv.route, PipeEv.score,
       PipeEv.synthesize, PipeEv.log] ∧
    (analyzeTrace ⟨⟨1, 0, 0, 0, ""⟩, ["c1"],
        fun _ _ => [Item.web ⟨"t", "u", "x", 1/2⟩]⟩).indexOf PipeEv.judge = 0 ∧
    (analyzeTrace ⟨⟨1, 0, 0, 0, ""⟩, ["c1"],
        fun _ _ => [Item.web ⟨"t", "u", "x", 1/2⟩]⟩).indexOf PipeEv.extract = 1 ∧
    ¬ ((1 : ℕ) < 0) := by
  refine ⟨rfl, ?_, ?_, by omega⟩
  · rfl
  · rfl

/-- C10 (amended): within every `/analyze` request the stages run in the
order judge, then concept extraction, then routing, scoring, synthesis and
the decision-log write: the stage trace is always a prefix-closed sublist of
that canonical order and always begins with judge followed by extraction. -/
theorem C10_stage_order (env : AnalyzeEnv) :
    List.Sublist (analyzeTrace env)
      [PipeEv.judge, PipeEv.extract, PipeEv.route, PipeEv.score,
       PipeEv.synthesize, PipeEv.log] ∧
    (analyzeTrace env).take 2 = [PipeEv.judge, PipeEv.extract] := by
  unfold analyzeTrace
  by_cases h1 : env.concepts = []
  · simp only [if_pos h1]
    exact ⟨by decide, rfl⟩
  · simp only [if_neg h1]
    by_cases h2 : env.routeItems env.judgeWeights
        (" ".intercalate (env.concepts.take 3)) = []
    · simp only [if_pos h2]
      exact ⟨by decide, rfl⟩
    · simp only [if_neg h2]
      exact ⟨by decide, rfl⟩

end Minnets
